import Mathlib

/-!
Verification of the multi-layer context store (mlcf).

This file gives a shallow embedding of the core data model and operations of
the `mlcf` package (`ContextItem`, the immediate FIFO buffer, session-memory
consolidation and filtering, the BM25 index, hybrid-fusion score
normalization, the adaptive chunker, and the orchestrator's assembly
pipeline), and proves or refutes the frozen specification claims about them.

Modelling conventions:
* Python `datetime` values are embedded as `Int` seconds (the code only
  compares datetimes, subtracts them, and formats hour/minute).
* Python `float` arithmetic is embedded as exact `ℚ` arithmetic, except for
  the BM25 IDF value which genuinely needs `Real.log` and is embedded in `ℝ`.
* Python `hash(s)` / `md5(s)` of a string are embedded as the string itself:
  the code uses them only as dictionary keys, i.e. up to equality, and the
  embedding treats the hash as injective.
* Python dictionaries are embedded as association lists in insertion order.
-/

namespace MLCF

/-- Metadata values (the code stores strings, numbers, booleans and lists of
strings in the open `metadata` mapping). -/
inductive Value where
  | str (s : String)
  | num (q : ℚ)
  | bool (b : Bool)
  | list (l : List String)
deriving DecidableEq, Repr

/-- A metadata / filter mapping: association list in insertion order. -/
abbrev Metadata := List (String × Value)

/-- Python `d.get(k)` on an association-list dictionary (first binding wins,
matching unique-key dictionaries). -/
def metaGet (md : Metadata) (k : String) : Option Value :=
  (md.find? (fun p => p.1 = k)).map (·.2)

/-- Python `k in d`. -/
def metaHas (md : Metadata) (k : String) : Bool :=
  (md.find? (fun p => p.1 = k)).isSome

/-- `ContextItem._calculate_importance`: importance score derived from the
`importance` metadata key; any value outside the five named strings (including
numbers) falls back to the default 1.0. -/
def calculateImportance (md : Metadata) : ℚ :=
  match (metaGet md "importance").getD (Value.str "normal") with
  | Value.str "critical" => 3/2
  | Value.str "high" => 6/5
  | Value.str "normal" => 1
  | Value.str "low" => 4/5
  | Value.str "minimal" => 1/2
  | _ => 1

/-- `ContextItem` (mlcf.core.context_models). Timestamps are `Int` seconds. -/
structure ContextItem where
  content : String
  metadata : Metadata := []
  id : String
  timestamp : Int
  conversationId : Option String := none
  accessCount : Nat := 0
  lastAccessed : Option Int := none
  importanceScore : ℚ := 1
  relevanceScore : ℚ := 0
deriving DecidableEq, Repr

/-- Constructing a `ContextItem`: `__post_init__` recomputes
`importance_score` from the metadata, overriding any value passed to the
constructor. -/
def mkContextItem (content : String) (metadata : Metadata) (id : String)
    (timestamp : Int) (conversationId : Option String)
    (importanceScore : ℚ := 1) : ContextItem :=
  { content := content, metadata := metadata, id := id, timestamp := timestamp
    conversationId := conversationId
    importanceScore :=
      -- dead store: `__post_init__` discards the constructor argument
      let _ := importanceScore
      calculateImportance metadata }

/-- `ContextItem.mark_accessed`. -/
def ContextItem.markAccessed (it : ContextItem) (now : Int) : ContextItem :=
  { it with accessCount := it.accessCount + 1, lastAccessed := some now }

/-- Python `s.lower()` over ASCII text, charwise. -/
def pyLowerStr (s : String) : String := String.mk (s.data.map Char.toLower)

/-- Python whitespace (`str.split`, `str.strip`, `\s`). -/
def isPyWs (c : Char) : Bool :=
  c = ' ' ∨ c = '\t' ∨ c = '\n' ∨ c = '\r' ∨ c = '\x0b' ∨ c = '\x0c'

/-- Python `s.strip()`. -/
def pyStrip (s : String) : String :=
  String.mk (((s.data.dropWhile isPyWs).reverse.dropWhile isPyWs).reverse)

/-- The deduplication key `content.strip().lower()` (trim + lowercase). -/
def normContent (s : String) : String := pyLowerStr (pyStrip s)

/-! ## Immediate buffer (mlcf.memory.immediate_buffer) -/

/-- `ImmediateContextBuffer`: bounded FIFO (a `deque` with `maxlen`) plus a
TTL.  `buffer` is oldest-first, matching the deque's left-to-right order. -/
structure ImmediateContextBuffer where
  maxSize : Nat
  ttlSeconds : Int
  buffer : List ContextItem := []
  totalAdds : Nat := 0
  totalEvictions : Nat := 0
deriving Repr

/-- `ImmediateContextBuffer.add`: append; a `deque` with `maxlen` silently
drops from the left when the length would exceed `maxSize`. -/
def ImmediateContextBuffer.addItem (b : ImmediateContextBuffer)
    (item : ContextItem) : ImmediateContextBuffer :=
  let wasFull := b.maxSize ≤ b.buffer.length
  let appended := b.buffer ++ [item]
  { b with
    buffer := appended.drop (appended.length - b.maxSize)
    totalAdds := b.totalAdds + 1
    totalEvictions := b.totalEvictions + (if wasFull then 1 else 0) }

/-- `_remove_expired`: pops from the head while the head's timestamp is older
than `now - ttl`; a TTL of 0 is falsy in Python, disabling removal. -/
def ImmediateContextBuffer.removeExpired (b : ImmediateContextBuffer)
    (now : Int) : ImmediateContextBuffer :=
  if b.ttlSeconds = 0 then b
  else { b with
    buffer := b.buffer.dropWhile (fun it => it.timestamp < now - b.ttlSeconds) }

/-- `get_recent`, result list only (the state effects are the expired-head
removal and the access marking of the returned items).  `max_items = 0` is
falsy in Python, so it does not truncate. -/
def ImmediateContextBuffer.getRecentItems (b : ImmediateContextBuffer)
    (now : Int) (maxItems : Option Nat) (conversationId : Option String) :
    List ContextItem :=
  let b1 := b.removeExpired now
  let items := b1.buffer
  let items := match conversationId with
    | some cid => items.filter (fun it : ContextItem => it.conversationId = some cid)
    | none => items
  let items := items.reverse
  let items := match maxItems with
    | some m => if m = 0 then items else items.take m
    | none => items
  items.map (fun it : ContextItem => it.markAccessed now)

/-- A fresh buffer with capacity `k` and TTL `ttl`. -/
def emptyBuffer (k : Nat) (ttl : Int) : ImmediateContextBuffer :=
  { maxSize := k, ttlSeconds := ttl }

/-- A sequence of `add` calls, in order. -/
def addAll (b : ImmediateContextBuffer) (l : List ContextItem) :
    ImmediateContextBuffer :=
  l.foldl ImmediateContextBuffer.addItem b

theorem addItem_maxSize (b : ImmediateContextBuffer) (it : ContextItem) :
    (b.addItem it).maxSize = b.maxSize := rfl

theorem addItem_ttl (b : ImmediateContextBuffer) (it : ContextItem) :
    (b.addItem it).ttlSeconds = b.ttlSeconds := rfl

theorem addItem_buffer_of_lt (b : ImmediateContextBuffer) (it : ContextItem)
    (h : b.buffer.length < b.maxSize) :
    (b.addItem it).buffer = b.buffer ++ [it] := by
  simp only [ImmediateContextBuffer.addItem, List.length_append,
    List.length_singleton]
  have h0 : b.buffer.length + 1 - b.maxSize = 0 := by omega
  simp [h0]

theorem addAll_spec (l : List ContextItem) (b : ImmediateContextBuffer)
    (h : b.buffer.length + l.length ≤ b.maxSize) :
    (addAll b l).buffer = b.buffer ++ l
    ∧ (addAll b l).maxSize = b.maxSize
    ∧ (addAll b l).ttlSeconds = b.ttlSeconds := by
  induction l generalizing b with
  | nil => simp [addAll]
  | cons x xs ih =>
    have hlt : b.buffer.length < b.maxSize := by
      simp [List.length_cons] at h; omega
    have hbuf := addItem_buffer_of_lt b x hlt
    have h2 : (b.addItem x).buffer.length + xs.length ≤ (b.addItem x).maxSize := by
      rw [hbuf, addItem_maxSize]
      simp only [List.length_append, List.length_singleton]
      simp [List.length_cons] at h; omega
    have := ih (b.addItem x) h2
    simpa [addAll, hbuf, addItem_maxSize, addItem_ttl] using this

theorem dropWhile_eq_self_of_not {α : Type} (p : α → Bool) (l : List α)
    (h : ∀ x ∈ l, ¬ p x) : l.dropWhile p = l := by
  cases l with
  | nil => rfl
  | cons a as =>
    rw [List.dropWhile_cons]
    simp [h a (List.mem_cons_self a as)]

/-- C4: on an immediate buffer of capacity `k` whose TTL has not elapsed for
any stored item, any sequence of at most `k` adds with unique contents leaves
all added items retrievable by `get_recent`, newest first; and the `(k+1)`-th
add evicts exactly the oldest item by insertion order, leaving the size at
`k`. -/
theorem c4_immediate_fifo (k : Nat) (ttl : Int) (l : List ContextItem)
    (x : ContextItem) (now : Int)
    (hlen : l.length ≤ k)
    (huniq : (l.map ContextItem.content).Nodup)
    (hfresh : ∀ it ∈ l, now - ttl ≤ it.timestamp) :
    (((addAll (emptyBuffer k ttl) l).getRecentItems now none none).map
        (fun it => (it.id, it.content))
      = l.reverse.map (fun it => (it.id, it.content)))
    ∧ (l.length = k → 1 ≤ k →
        ((addAll (emptyBuffer k ttl) l).addItem x).buffer = l.tail ++ [x]
        ∧ ((addAll (emptyBuffer k ttl) l).addItem x).buffer.length = k
        ∧ ((addAll (emptyBuffer k ttl) l).addItem x).totalEvictions
            = (addAll (emptyBuffer k ttl) l).totalEvictions + 1) := by
  have hbuf : (addAll (emptyBuffer k ttl) l).buffer = l := by
    simpa [emptyBuffer] using
      (addAll_spec l (emptyBuffer k ttl) (by simpa [emptyBuffer] using hlen)).1
  have hmax : (addAll (emptyBuffer k ttl) l).maxSize = k :=
    (addAll_spec l (emptyBuffer k ttl) (by simpa [emptyBuffer] using hlen)).2.1
  have httl : (addAll (emptyBuffer k ttl) l).ttlSeconds = ttl :=
    (addAll_spec l (emptyBuffer k ttl) (by simpa [emptyBuffer] using hlen)).2.2
  constructor
  · -- get_recent returns all items, newest first
    simp only [ImmediateContextBuffer.getRecentItems,
      ImmediateContextBuffer.removeExpired, httl, hbuf]
    by_cases h0 : ttl = 0
    · subst h0
      simp [hbuf, List.map_reverse, Function.comp, ContextItem.markAccessed]
    · have hdrop : l.dropWhile (fun it => it.timestamp < now - ttl) = l := by
        refine dropWhile_eq_self_of_not _ _ (fun it hit => ?_)
        have := hfresh it hit
        simp only [decide_eq_true_eq]
        omega
      simp [h0, hbuf, hdrop, List.map_reverse, Function.comp,
        ContextItem.markAccessed]
  · -- the (k+1)-th add evicts exactly the oldest
    intro hk hk1
    have hne : l ≠ [] := by
      intro h; subst h; simp at hk; omega
    refine ⟨?_, ?_, ?_⟩
    · simp only [ImmediateContextBuffer.addItem, hbuf, hmax]
      have hlen1 : (l ++ [x]).length - k = 1 := by
        simp [List.length_append, hk]
      rw [hlen1]
      cases l with
      | nil => exact absurd rfl hne
      | cons a as => simp
    · simp only [ImmediateContextBuffer.addItem, hbuf, hmax]
      simp [List.length_append, hk]
    · simp only [ImmediateContextBuffer.addItem, hbuf, hmax, hk]
      simp

/-- Concrete witness for C4 at `k = 2`, `ttl = 10`, two stored items and a
third add that evicts the first. -/
theorem c4_immediate_fifo_witness :
    (let i1 : ContextItem :=
      { content := "A", id := "id1", timestamp := 0 }
     let i2 : ContextItem :=
      { content := "B", id := "id2", timestamp := 1 }
     let i3 : ContextItem :=
      { content := "C", id := "id3", timestamp := 2 }
     (((addAll (emptyBuffer 2 10) [i1, i2]).getRecentItems 5 none none).map
          (fun it => (it.id, it.content))
        = [("id2", "B"), ("id1", "A")])
      ∧ ((addAll (emptyBuffer 2 10) [i1, i2]).addItem i3).buffer = [i2, i3]) := by
  have h := c4_immediate_fifo 2 10
    [{ content := "A", id := "id1", timestamp := 0 },
     { content := "B", id := "id2", timestamp := 1 }]
    { content := "C", id := "id3", timestamp := 2 } 5
    (by decide) (by decide) (by decide)
  exact ⟨h.1, (h.2 (by decide) (by decide)).1⟩

theorem mem_getRecentItems_timestamp (b : ImmediateContextBuffer) (now : Int)
    (mi : Option Nat) (ci : Option String) (x : ContextItem)
    (hx : x ∈ b.getRecentItems now mi ci) :
    ∃ y ∈ (b.removeExpired now).buffer, x.timestamp = y.timestamp := by
  unfold ImmediateContextBuffer.getRecentItems at hx
  have base :
      ∀ z : ContextItem, z ∈ (b.removeExpired now).buffer →
        ∃ y ∈ (b.removeExpired now).buffer,
          (z.markAccessed now).timestamp = y.timestamp :=
    fun z hz => ⟨z, hz, rfl⟩
  cases ci with
  | none =>
    cases mi with
    | none =>
      simp only [List.mem_map, List.mem_reverse] at hx
      obtain ⟨z, hz, rfl⟩ := hx
      exact base z hz
    | some m =>
      by_cases hm : m = 0
      · simp [hm, List.mem_map, List.mem_reverse] at hx
        obtain ⟨z, hz, rfl⟩ := hx
        exact base z hz
      · simp only [if_neg hm, List.mem_map] at hx
        obtain ⟨z, hz, rfl⟩ := hx
        exact base z (List.mem_reverse.1 (List.mem_of_mem_take hz))
  | some cid =>
    cases mi with
    | none =>
      simp only [List.mem_map, List.mem_reverse, List.mem_filter] at hx
      obtain ⟨z, hz, rfl⟩ := hx
      exact base z hz.1
    | some m =>
      by_cases hm : m = 0
      · simp [hm, List.mem_map, List.mem_reverse, List.mem_filter] at hx
        obtain ⟨z, hz, rfl⟩ := hx
        exact base z hz.1
      · simp only [if_neg hm, List.mem_map] at hx
        obtain ⟨z, hz, rfl⟩ := hx
        have hz2 := List.mem_reverse.1 (List.mem_of_mem_take hz)
        exact base z (List.mem_filter.1 hz2).1

theorem sorted_dropWhile_not_lt (c : Int) (l : List ContextItem)
    (hsort : l.Pairwise (fun a b => a.timestamp ≤ b.timestamp)) :
    ∀ x ∈ l.dropWhile (fun it => it.timestamp < c), ¬ (x.timestamp < c) := by
  induction l with
  | nil => simp
  | cons a as ih =>
    rw [List.dropWhile_cons]
    by_cases ha : a.timestamp < c
    · simp only [decide_eq_true_eq, if_pos ha]
      exact ih (List.Pairwise.of_cons hsort)
    · simp only [decide_eq_true_eq, if_neg ha]
      intro x hx
      rcases List.mem_cons.1 hx with rfl | hx2
      · exact ha
      · have := (List.pairwise_cons.1 hsort).1 x hx2
        omega

/-- C2 counterexample: `_remove_expired` only pops expired items from the
front of the deque; an expired item sitting behind a fresh one is returned by
`get_recent`.  Buffer with TTL 10 holding a fresh item (timestamp 100) added
before a stale one (timestamp 0); at time 100 the stale item's deadline
`0 + 10` has long passed, yet `get_recent` returns it. -/
theorem c2_expired_counterexample :
    (((addAll (emptyBuffer 10 10)
          [{ content := "fresh", id := "a", timestamp := 100 },
           { content := "stale", id := "b", timestamp := 0 }]).getRecentItems
        100 none none).map (fun it => (it.id, it.timestamp))
      = [("b", 0), ("a", 100)])
    ∧ (0 : Int) + 10 < 100 := by
  constructor
  · rfl
  · decide

/-- C2 (amended): the code has no `expires_at` field; the only expiry deadline
is the Immediate tier's `timestamp + ttl_seconds`.  Provided the buffer's
timestamps are nondecreasing in insertion order (which the orchestrator's
store path guarantees, since it timestamps items at creation) and the TTL is
positive, `get_recent` returns no item whose deadline is strictly before
`now`.  The Session tier performs no expiry at all. -/
theorem c2_amended_no_expired_in_monotone_buffer (b : ImmediateContextBuffer)
    (now : Int) (mi : Option Nat) (ci : Option String)
    (hsort : b.buffer.Pairwise (fun a c => a.timestamp ≤ c.timestamp))
    (httl : 1 ≤ b.ttlSeconds) :
    ∀ x ∈ b.getRecentItems now mi ci, ¬ (x.timestamp + b.ttlSeconds < now) := by
  intro x hx
  obtain ⟨y, hy, hxy⟩ := mem_getRecentItems_timestamp b now mi ci x hx
  have httl0 : b.ttlSeconds ≠ 0 := by omega
  rw [ImmediateContextBuffer.removeExpired, if_neg httl0] at hy
  have := sorted_dropWhile_not_lt (now - b.ttlSeconds) b.buffer hsort y hy
  omega

/-- Concrete witness for the amended C2 theorem: a monotone two-item buffer at
TTL 10 where the head is expired and correctly dropped. -/
theorem c2_amended_witness :
    (let b : ImmediateContextBuffer :=
      { maxSize := 10, ttlSeconds := 10,
        buffer := [{ content := "old", id := "a", timestamp := 0 },
                   { content := "new", id := "b", timestamp := 95 }] }
     ∀ x ∈ b.getRecentItems 100 none none, ¬ (x.timestamp + b.ttlSeconds < 100)) :=
  c2_amended_no_expired_in_monotone_buffer _ 100 none none
    (by decide) (by decide)

/-! ## String helpers shared by the session store, BM25 and the orchestrator -/

/-- Python `s.split()`: split on runs of whitespace, no empty words. -/
def pySplitAux : List Char → List Char → List String
  | [], acc => if acc.isEmpty then [] else [String.mk acc.reverse]
  | c :: cs, acc =>
    if isPyWs c then
      if acc.isEmpty then pySplitAux cs []
      else String.mk acc.reverse :: pySplitAux cs []
    else pySplitAux cs (c :: acc)

/-- Python `s.split()` on a string. -/
def pySplit (s : String) : List String := pySplitAux s.data []

/-- Python `needle in hay` substring test. -/
def strContainsSub (hay needle : String) : Bool :=
  (List.range (hay.data.length + 1)).any
    (fun i => needle.data.isPrefixOf (hay.data.drop i))

/-- Python `set(l)` represented as the deduplicated list (first occurrences);
only size and membership of the set are ever used. -/
def setOf (l : List String) : List String := l.eraseDups

/-- Stable insertion of `x` after every element `y` with `le y x`. -/
def insertLe {a : Type} (le : a → a → Bool) (x : a) : List a → List a
  | [] => [x]
  | y :: ys => if le y x then y :: insertLe le x ys else x :: y :: ys

/-- Stable sort by the boolean preorder `le` (ties keep list order): the
extensional behaviour of Python's stable `list.sort`.  For a descending sort
with `reverse=True` on key `k`, instantiate `le a b` with `k b ≤ k a`. -/
def sortStable {a : Type} (le : a → a → Bool) (l : List a) : List a :=
  l.foldl (fun acc x => insertLe le x acc) []

/-! ## Session memory (mlcf.memory.session_memory) -/

/-- One filter entry check, session style (`_apply_filters` inner loop): a
list filter value means membership, anything else means equality. -/
def filterValueMatches (mv : Value) (fv : Value) : Bool :=
  match fv with
  | Value.list vs =>
    match mv with
    | Value.str s => s ∈ vs
    | _ => false
  | _ => mv = fv

/-- `SessionMemory._apply_filters` specialised to one item's metadata: every
filter key must be present and match (list values by membership). -/
def sessionItemMatches (md : Metadata) (filters : Metadata) : Bool :=
  filters.all (fun kv =>
    match metaGet md kv.1 with
    | none => false
    | some mv => filterValueMatches mv kv.2)

/-- `BM25Search._matches_filters` specialised to one document's metadata:
every filter key must be present and compare equal — plain equality even for
list values. -/
def bm25DocMatches (md : Metadata) (filters : Metadata) : Bool :=
  filters.all (fun kv =>
    match metaGet md kv.1 with
    | none => false
    | some mv => mv = kv.2)

/-- `SessionMemory._calculate_relevance`: 0.6 · match-ratio + 0.4 · Jaccard
over lowercased word sets, with substring word matching for the ratio. -/
def sessionRelevance (content query : String) : ℚ :=
  let contentLower := pyLowerStr content
  let queryLower := pyLowerStr query
  let queryWords := setOf (pySplit queryLower)
  let contentWords := pySplit contentLower
  if queryWords.isEmpty then 0
  else
    let matchCount := (queryWords.countP (fun w => strContainsSub contentLower w) : ℚ)
    let contentWordSet := setOf contentWords
    let inter := ((queryWords.filter (fun w => w ∈ contentWordSet)).length : ℚ)
    let union := (queryWords.length : ℚ)
      + ((contentWordSet.filter (fun w => w ∉ queryWords)).length : ℚ)
    let jaccard := if union > 0 then inter / union else 0
    let matchRatio := matchCount / (queryWords.length : ℚ)
    3/5 * matchRatio + 2/5 * jaccard

/-- `SessionMemory.search`, result list only.  The session store's secondary
conversation/task indices always contain exactly the ids of the live items
with that conversation/task key (adds and evictions update them together, and
reads filter stale ids through the primary map), so the candidate filtering
is expressed directly on the items.  `query = ""` is falsy in Python. -/
def sessionSearch (items : List ContextItem) (query : String)
    (maxResults : Nat) (filters : Option Metadata)
    (conversationId : Option String) (taskId : Option String)
    (relevanceThreshold : ℚ) (now : Int) : List ContextItem :=
  let candidates := items
  let candidates := match conversationId with
    | some cid => candidates.filter (fun it : ContextItem => it.conversationId = some cid)
    | none => candidates
  let candidates := match taskId with
    | some tid => candidates.filter
        (fun it : ContextItem => metaGet it.metadata "task_id" = some (Value.str tid))
    | none => candidates
  let candidates := match filters with
    | some fl => candidates.filter (fun it : ContextItem => sessionItemMatches it.metadata fl)
    | none => candidates
  let results :=
    if query = "" then
      (sortStable (fun a b =>
        decide ((b.timestamp : ℚ) * b.importanceScore ≤ (a.timestamp : ℚ) * a.importanceScore))
        candidates).take maxResults
    else
      let scored := (candidates.filter
          (fun it : ContextItem => relevanceThreshold ≤ sessionRelevance it.content query)).map
        (fun it : ContextItem => { it with relevanceScore := sessionRelevance it.content query })
      (sortStable (fun a b =>
        decide (b.relevanceScore * b.importanceScore ≤ a.relevanceScore * a.importanceScore))
        scored).take maxResults
  results.map (fun it : ContextItem => it.markAccessed now)

/-- Two-digit zero padding, as in `strftime`. -/
def pad2 (n : Nat) : String := if n < 10 then "0" ++ toString n else toString n

/-- `timestamp.strftime('%H:%M')` for a nonnegative epoch-seconds timestamp. -/
def strftimeHM (t : Int) : String :=
  let n := t.toNat
  pad2 ((n / 3600) % 24) ++ ":" ++ pad2 ((n / 60) % 60)

/-- `SessionMemory._summarize_items`: newline-joined `"[HH:MM] content"`
lines. -/
def summarizeItems (items : List ContextItem) : String :=
  String.intercalate "\n"
    (items.map (fun it : ContextItem => "[" ++ strftimeHM it.timestamp ++ "] " ++ it.content))

/-- Consolidation of one conversation group of resident items: the candidate
construction of `_find_consolidation_candidates` (sort members by timestamp,
join their summary, average their importance, take the earliest timestamp)
followed by `_create_consolidated_item` (which builds the synthetic
`ContextItem`; its `importance_score` constructor argument is then recomputed
from the metadata by `__post_init__`).  `id` stands for the fresh uuid. -/
def consolidateGroup (id : String) (items : List ContextItem) (now : Int) :
    ContextItem :=
  let sorted := sortStable (fun a b => decide (a.timestamp ≤ b.timestamp)) items
  let content := summarizeItems sorted
  let avgImportance := (sorted.map (fun it : ContextItem => it.importanceScore)).sum
    / (sorted.length : ℚ)
  mkContextItem content
    [("type", Value.str "consolidated"),
     ("original_count", Value.num (sorted.length : ℚ)),
     ("importance", Value.num avgImportance),
     ("consolidated_at", Value.str (toString now))]
    id
    ((sorted.head?).elim 0 (fun it : ContextItem => it.timestamp))
    ((sorted.head?).elim none (fun it : ContextItem => it.conversationId))
    avgImportance

/-- C5 (code bug): on a conversation group of five items the synthetic item
gets the joined `"[HH:MM] content"` lines ordered by timestamp, metadata type
`consolidated`, the earliest timestamp and the common conversation id — but
its `importance_score` is 1.0, not the members' mean 1.5:
`_create_consolidated_item` passes the mean to the constructor, and
`__post_init__` overwrites it from `metadata["importance"]`, which now holds a
float and therefore falls back to the default 1.0. -/
theorem c5_consolidated_item_eval :
    (let mk5 := fun (c : String) (ts : Int) =>
      mkContextItem c [("importance", Value.str "critical")] ("id" ++ c) ts
        (some "conv1")
     let items := [mk5 "A" 60, mk5 "B" 120, mk5 "C" 180, mk5 "D" 240,
       mk5 "E" 300]
     let c := consolidateGroup "fresh-uuid" items 1000
     c.content = "[00:01] A\n[00:02] B\n[00:03] C\n[00:04] D\n[00:05] E"
     ∧ metaGet c.metadata "type" = some (Value.str "consolidated")
     ∧ c.timestamp = 60
     ∧ c.conversationId = some "conv1"
     ∧ (items.map (fun it : ContextItem => it.importanceScore)).sum
         / (items.length : ℚ) = 3/2
     ∧ c.importanceScore = 1
     ∧ (1 : ℚ) ≠ 3/2) := by
  refine ⟨by decide, by decide, by decide, by decide, ?_, by decide, by norm_num⟩
  norm_num [mkContextItem, calculateImportance, metaGet, List.find?]

/-- C7 counterexample: for the list-valued filter
`type ∈ ["fact", "knowledge"]`, the session predicate accepts an item with
`metadata.type = "fact"` (membership), while the BM25 predicate compares the
scalar against the whole list and rejects the same document — the two stores
do not honor the same predicate. -/
theorem c7_filter_counterexample :
    sessionItemMatches [("type", Value.str "fact")]
        [("type", Value.list ["fact", "knowledge"])] = true
    ∧ bm25DocMatches [("type", Value.str "fact")]
        [("type", Value.list ["fact", "knowledge"])] = false := by
  decide

theorem all_congr_mem {α : Type} (l : List α) (f g : α → Bool)
    (h : ∀ x ∈ l, f x = g x) : l.all f = l.all g := by
  induction l with
  | nil => rfl
  | cons a as ih =>
    simp only [List.all_cons]
    rw [h a (List.mem_cons_self a as), ih (fun x hx => h x (List.mem_cons_of_mem a hx))]

/-- C7 (amended): the session predicate has exactly the claimed semantics
(missing key → no match; list value → membership of the stored string;
otherwise equality), while BM25 applies plain equality to every filter value;
the two predicates coincide exactly when no filter value is a list. -/
theorem c7_amended_filter_semantics (md filters : Metadata) :
    (sessionItemMatches md filters = true ↔
      ∀ kv ∈ filters,
        match kv.2 with
        | Value.list vs => ∃ s, metaGet md kv.1 = some (Value.str s) ∧ s ∈ vs
        | fv => metaGet md kv.1 = some fv)
    ∧ ((∀ kv ∈ filters, ∀ vs, kv.2 ≠ Value.list vs) →
        bm25DocMatches md filters = sessionItemMatches md filters) := by
  constructor
  · rw [sessionItemMatches, List.all_eq_true]
    constructor
    · intro h kv hkv
      have := h kv hkv
      rcases hmv : metaGet md kv.1 with _ | mv
      · rw [hmv] at this; simp at this
      · rw [hmv] at this
        cases hfv : kv.2 with
        | list vs =>
          rw [hfv] at this
          cases mv with
          | str s =>
            simp only [filterValueMatches] at this
            exact ⟨s, rfl, by simpa using this⟩
          | num q => simp [filterValueMatches] at this
          | bool b => simp [filterValueMatches] at this
          | list l2 => simp [filterValueMatches] at this
        | str s =>
          rw [hfv] at this
          simp only [filterValueMatches] at this
          simp only [decide_eq_true_eq] at this
          rw [this]
        | num q =>
          rw [hfv] at this
          simp only [filterValueMatches] at this
          simp only [decide_eq_true_eq] at this
          rw [this]
        | bool b =>
          rw [hfv] at this
          simp only [filterValueMatches] at this
          simp only [decide_eq_true_eq] at this
          rw [this]
    · intro h kv hkv
      have := h kv hkv
      cases hfv : kv.2 with
      | list vs =>
        rw [hfv] at this
        obtain ⟨s, hs, hmem⟩ := this
        rw [hs]
        simpa [filterValueMatches] using hmem
      | str s =>
        rw [hfv] at this; rw [this]; simp [filterValueMatches]
      | num q =>
        rw [hfv] at this; rw [this]; simp [filterValueMatches]
      | bool b =>
        rw [hfv] at this; rw [this]; simp [filterValueMatches]
  · intro h
    rw [bm25DocMatches, sessionItemMatches]
    refine all_congr_mem _ _ _ (fun kv hkv => ?_)
    rcases metaGet md kv.1 with _ | mv
    · rfl
    · cases hfv : kv.2 with
      | list vs => exact absurd hfv (h kv hkv vs)
      | str s => simp [filterValueMatches]
      | num q => simp [filterValueMatches]
      | bool b => simp [filterValueMatches]

/-- Concrete witness for the amended C7 theorem: on the scalar filter
`type = "fact"` both predicates accept the same item. -/
theorem c7_amended_witness :
    (sessionItemMatches [("type", Value.str "fact")] [("type", Value.str "fact")] = true ↔
      ∀ kv ∈ ([("type", Value.str "fact")] : Metadata),
        match kv.2 with
        | Value.list vs =>
          ∃ s, metaGet [("type", Value.str "fact")] kv.1 = some (Value.str s) ∧ s ∈ vs
        | fv => metaGet [("type", Value.str "fact")] kv.1 = some fv)
    ∧ bm25DocMatches [("type", Value.str "fact")] [("type", Value.str "fact")]
        = sessionItemMatches [("type", Value.str "fact")] [("type", Value.str "fact")] :=
  ⟨(c7_amended_filter_semantics [("type", Value.str "fact")]
      [("type", Value.str "fact")]).1,
   (c7_amended_filter_semantics [("type", Value.str "fact")]
      [("type", Value.str "fact")]).2
     (by intro kv hkv vs; simp at hkv; rw [hkv]; simp)⟩

/-! ## BM25 keyword index (mlcf.retrieval.bm25_search) -/

/-- `tokenize` character scan: accumulate alphanumeric runs, keep runs of
length at least `min_length = 2`.  (`isalnum` is read over ASCII.) -/
def tokenizeAux : List Char → List Char → List String
  | [], acc => if 2 ≤ acc.length then [String.mk acc.reverse] else []
  | c :: cs, acc =>
    if c.isAlphanum then tokenizeAux cs (c :: acc)
    else
      (if 2 ≤ acc.length then [String.mk acc.reverse] else []) ++ tokenizeAux cs []

/-- `tokenize(text)` with the default `lowercase=True`, `min_length=2`. -/
def tokenize (text : String) : List String :=
  tokenizeAux (text.data.map Char.toLower) []

/-- `BM25Document`. -/
structure BM25Document where
  docId : String
  content : String
  tokens : List String
  metadata : Metadata
  tokenCount : Nat
deriving DecidableEq, Repr

/-- `BM25Document.from_text`. -/
def BM25Document.fromText (docId content : String) (metadata : Metadata) :
    BM25Document :=
  let tokens := tokenize content
  ⟨docId, content, tokens, metadata, tokens.length⟩

/-- Association-list read (`dict.get`). -/
def alistGet {b : Type} : List (String × b) → String → Option b
  | [], _ => none
  | (k1, v) :: rest, k => if k1 = k then some v else alistGet rest k

/-- Association-list write of a fixed value (`d[k] = v`), inserting at the
end when the key is new. -/
def alistSet {b : Type} : List (String × b) → String → b → List (String × b)
  | [], k, v => [(k, v)]
  | (k1, v1) :: rest, k, v =>
    if k1 = k then (k1, v) :: rest else (k1, v1) :: alistSet rest k v

/-- Association-list update through a `defaultdict` (`d[k] = f(d[k])` where a
missing key reads as `dflt`). -/
def alistUpdate {b : Type} :
    List (String × b) → String → (b → b) → b → List (String × b)
  | [], k, f, dflt => [(k, f dflt)]
  | (k1, v1) :: rest, k, f, dflt =>
    if k1 = k then (k1, f v1) :: rest else (k1, v1) :: alistUpdate rest k f dflt

/-- Association-list key deletion (`del d[k]`). -/
def alistRemove {b : Type} (l : List (String × b)) (k : String) :
    List (String × b) :=
  l.filter (fun p => p.1 ≠ k)

/-- `set.add`: append if absent. -/
def insertIfAbsent (x : String) (l : List String) : List String :=
  if x ∈ l then l else l ++ [x]

/-- `BM25Search` mutable state.  The `idf_scores` cache is not modelled: it
memoizes `_get_idf` for `doc_freq ≥ 1` tokens and is cleared on every
mutation, so `_get_idf` behaves as the pure function `getIdf` below.
`epsilon` is kept as an exact `ℚ` (the float 0.25 is exact). -/
structure BM25State where
  k1 : ℚ := 3/2
  b : ℚ := 3/4
  epsilon : ℚ := 1/4
  documents : List BM25Document := []
  invertedIndex : List (String × List String) := []
  docFreqs : List (String × Nat) := []
  avgDocLength : ℚ := 0
  totalDocs : Nat := 0
deriving Repr

/-- Fresh `BM25Search()` state. -/
def bm25Empty : BM25State := {}

/-- `inverted_index[token]` (a `defaultdict(set)` read). -/
def lookupIdx (st : BM25State) (t : String) : List String :=
  (alistGet st.invertedIndex t).getD []

/-- `doc_freqs[token]` (a `defaultdict(int)` read). -/
def lookupFreq (st : BM25State) (t : String) : Nat :=
  (alistGet st.docFreqs t).getD 0

/-- `_update_statistics`. -/
def BM25State.updateStatistics (st : BM25State) : BM25State :=
  let total := st.documents.length
  let avg : ℚ :=
    if 0 < total then ((st.documents.map (fun d => d.tokenCount)).sum : ℚ) / (total : ℚ)
    else 0
  { st with totalDocs := total, avgDocLength := avg }

/-- One step of `_remove_from_index`: discard the document id from the
token's posting set; the subsequent membership test that guards the
`doc_freqs` decrement always fails (the id was just discarded), so the
frequency is left untouched; an empty posting set is deleted together with
its frequency entry. -/
def removeTokenStep (docId : String) (s : BM25State) (t : String) : BM25State :=
  if ((lookupIdx s t).filter (fun d => d ≠ docId)).isEmpty then
    { s with invertedIndex := alistRemove s.invertedIndex t
             docFreqs := alistRemove s.docFreqs t }
  else
    { s with invertedIndex :=
        alistSet s.invertedIndex t ((lookupIdx s t).filter (fun d => d ≠ docId)) }

/-- `_remove_from_index` itself; the token set `set(doc.tokens)` is embedded
as `dedup` (set iteration order is arbitrary and immaterial here). -/
def BM25State.removeFromIndex (st : BM25State) (docId : String) : BM25State :=
  match st.documents.find? (fun d => d.docId = docId) with
  | none => st
  | some doc => (doc.tokens.dedup).foldl (removeTokenStep docId) st

/-- `documents[doc_id] = doc`: replace in place, or append when new. -/
def replaceOrAppendDoc (docs : List BM25Document) (doc : BM25Document) :
    List BM25Document :=
  if docs.any (fun d => d.docId = doc.docId) then
    docs.map (fun d => if d.docId = doc.docId then doc else d)
  else docs ++ [doc]

/-- One step of the indexing loop of `add_document`: add the document id to
the token's posting set and bump the token's document frequency. -/
def indexTokenStep (docId : String) (s : BM25State) (t : String) : BM25State :=
  { s with
    invertedIndex := alistUpdate s.invertedIndex t (insertIfAbsent docId) []
    docFreqs := alistUpdate s.docFreqs t (fun n => n + 1) 0 }

/-- `add_document`: replace-or-insert, update the inverted index and document
frequencies over the token set (`set(doc.tokens)` embedded as `dedup`), then
refresh corpus statistics. -/
def BM25State.addDocument (st : BM25State) (docId content : String)
    (metadata : Metadata) : BM25State :=
  let doc := BM25Document.fromText docId content metadata
  let st1 := if st.documents.any (fun d => d.docId = docId) then
      st.removeFromIndex docId
    else st
  let st2 := { st1 with documents := replaceOrAppendDoc st1.documents doc }
  let st3 := (doc.tokens.dedup).foldl (indexTokenStep docId) st2
  st3.updateStatistics

/-- `_get_idf`: zero (not the floored formula) for tokens absent from every
document, otherwise the logarithmic IDF floored at `epsilon`. -/
noncomputable def BM25State.getIdf (st : BM25State) (token : String) : ℝ :=
  let docFreq := lookupFreq st token
  if docFreq = 0 then 0
  else
    max (Real.log (((st.totalDocs : ℝ) - (docFreq : ℝ) + 1/2) / ((docFreq : ℝ) + 1/2) + 1))
      ((st.epsilon : ℚ) : ℝ)

/-- `_calculate_scores` candidate collection: every document whose posting
set contains some query token. -/
def BM25State.candidateDocs (st : BM25State) (queryTokens : List String) :
    List String :=
  ((queryTokens.map (lookupIdx st)).flatten).dedup

/-- The per-term BM25 contribution computed inside `_calculate_scores`; its
length normalization divides by the stored `avg_doc_length`. -/
noncomputable def bm25TermScore (st : BM25State) (doc : BM25Document)
    (token : String) : ℝ :=
  let termFreq := (doc.tokens.count token : ℝ)
  let idf := st.getIdf token
  let numerator := termFreq * (((st.k1 : ℚ) : ℝ) + 1)
  let denominator := termFreq + ((st.k1 : ℚ) : ℝ) *
    (1 - ((st.b : ℚ) : ℝ) + ((st.b : ℚ) : ℝ) *
      ((doc.tokenCount : ℝ) / (((st.avgDocLength : ℚ)) : ℝ)))
  idf * (numerator / denominator)

theorem alistGet_set_eq {b : Type} (l : List (String × b)) (k : String) (v : b) :
    alistGet (alistSet l k v) k = some v := by
  induction l with
  | nil => simp [alistSet, alistGet]
  | cons p rest ih =>
    cases p with
    | mk k1 v1 =>
      by_cases h : k1 = k
      · simp [alistSet, alistGet, h]
      · simp [alistSet, alistGet, h, ih]

theorem alistGet_set_ne {b : Type} (l : List (String × b)) (k u : String) (v : b)
    (h : u ≠ k) : alistGet (alistSet l k v) u = alistGet l u := by
  induction l with
  | nil => simp [alistSet, alistGet, Ne.symm h]
  | cons p rest ih =>
    cases p with
    | mk k1 v1 =>
      by_cases h1 : k1 = k
      · subst h1
        simp [alistSet, alistGet, Ne.symm h]
      · by_cases h2 : k1 = u
        · simp [alistSet, alistGet, h1, h2, h]
        · simp [alistSet, alistGet, h1, h2, ih]

theorem alistGet_update_eq {b : Type} (l : List (String × b)) (k : String)
    (f : b → b) (dflt : b) :
    alistGet (alistUpdate l k f dflt) k = some (f ((alistGet l k).getD dflt)) := by
  induction l with
  | nil => simp [alistUpdate, alistGet]
  | cons p rest ih =>
    cases p with
    | mk k1 v1 =>
      by_cases h : k1 = k
      · simp [alistUpdate, alistGet, h]
      · simp [alistUpdate, alistGet, h, ih]

theorem alistGet_update_ne {b : Type} (l : List (String × b)) (k u : String)
    (f : b → b) (dflt : b) (h : u ≠ k) :
    alistGet (alistUpdate l k f dflt) u = alistGet l u := by
  induction l with
  | nil => simp [alistUpdate, alistGet, Ne.symm h]
  | cons p rest ih =>
    cases p with
    | mk k1 v1 =>
      by_cases h1 : k1 = k
      · subst h1
        simp [alistUpdate, alistGet, Ne.symm h]
      · by_cases h2 : k1 = u
        · simp [alistUpdate, alistGet, h1, h2, h]
        · simp [alistUpdate, alistGet, h1, h2, ih]

theorem alistGet_remove_eq {b : Type} (l : List (String × b)) (k : String) :
    alistGet (alistRemove l k) k = none := by
  induction l with
  | nil => simp [alistRemove, alistGet]
  | cons p rest ih =>
    cases p with
    | mk k1 v1 =>
      simp only [alistRemove, List.filter_cons] at ih ⊢
      by_cases h : k1 = k
      · simpa [h] using ih
      · simpa [alistGet, h] using ih

theorem alistGet_remove_ne {b : Type} (l : List (String × b)) (k u : String)
    (h : u ≠ k) : alistGet (alistRemove l k) u = alistGet l u := by
  induction l with
  | nil => simp [alistRemove, alistGet]
  | cons p rest ih =>
    cases p with
    | mk k1 v1 =>
      simp only [alistRemove, List.filter_cons] at ih ⊢
      by_cases h1 : k1 = k
      · subst h1
        simpa [alistGet, Ne.symm h] using ih
      · by_cases h2 : k1 = u
        · simp [alistGet, h1, h2, h]
        · simpa [alistGet, h1, h2] using ih

theorem removeTokenStep_docs (docId : String) (s : BM25State) (t : String) :
    (removeTokenStep docId s t).documents = s.documents := by
  unfold removeTokenStep
  split <;> rfl

theorem removeTokenStep_self (docId : String) (s : BM25State) (t : String) :
    lookupIdx (removeTokenStep docId s t) t =
      (lookupIdx s t).filter (fun d => d ≠ docId)
    ∧ lookupFreq (removeTokenStep docId s t) t =
      (if ((lookupIdx s t).filter (fun d => d ≠ docId)).isEmpty then 0
       else lookupFreq s t) := by
  unfold removeTokenStep
  by_cases he : ((lookupIdx s t).filter (fun d => d ≠ docId)).isEmpty
  · rw [if_pos he, if_pos he]
    constructor
    · simp only [lookupIdx, alistGet_remove_eq, Option.getD_none]
      exact (List.isEmpty_iff.1 he).symm
    · simp [lookupFreq, alistGet_remove_eq]
  · rw [if_neg he, if_neg he]
    constructor
    · simp [lookupIdx, alistGet_set_eq]
    · rfl

theorem removeTokenStep_other (docId : String) (s : BM25State) (t u : String)
    (hu : u ≠ t) :
    lookupIdx (removeTokenStep docId s t) u = lookupIdx s u
    ∧ lookupFreq (removeTokenStep docId s t) u = lookupFreq s u := by
  unfold removeTokenStep
  by_cases he : ((lookupIdx s t).filter (fun d => d ≠ docId)).isEmpty
  · rw [if_pos he]
    exact ⟨by simp [lookupIdx, alistGet_remove_ne _ _ _ hu],
      by simp [lookupFreq, alistGet_remove_ne _ _ _ hu]⟩
  · rw [if_neg he]
    exact ⟨by simp [lookupIdx, alistGet_set_ne _ _ _ _ hu], rfl⟩

theorem removeFold_spec (docId : String) (ts : List String) (s : BM25State)
    (hnd : ts.Nodup) (u : String) :
    lookupIdx (ts.foldl (removeTokenStep docId) s) u =
      (if u ∈ ts then (lookupIdx s u).filter (fun d => d ≠ docId) else lookupIdx s u)
    ∧ lookupFreq (ts.foldl (removeTokenStep docId) s) u =
      (if u ∈ ts then
        (if ((lookupIdx s u).filter (fun d => d ≠ docId)).isEmpty then 0
         else lookupFreq s u)
       else lookupFreq s u)
    ∧ (ts.foldl (removeTokenStep docId) s).documents = s.documents := by
  induction ts generalizing s with
  | nil => simp
  | cons t ts ih =>
    obtain ⟨hnotin, hnd2⟩ := List.nodup_cons.1 hnd
    obtain ⟨ih1, ih2, ih3⟩ := ih (removeTokenStep docId s t) hnd2
    simp only [List.foldl_cons]
    by_cases hut : u = t
    · subst hut
      obtain ⟨hs1, hs2⟩ := removeTokenStep_self docId s u
      refine ⟨?_, ?_, by rw [ih3, removeTokenStep_docs]⟩
      · rw [ih1, if_neg hnotin, hs1, if_pos (List.mem_cons_self u ts)]
      · rw [ih2, if_neg hnotin, hs2, if_pos (List.mem_cons_self u ts)]
    · obtain ⟨hs1, hs2⟩ := removeTokenStep_other docId s t u hut
      refine ⟨?_, ?_, by rw [ih3, removeTokenStep_docs]⟩
      · rw [ih1, hs1]
        by_cases hm : u ∈ ts
        · rw [if_pos hm, if_pos (List.mem_cons_of_mem t hm)]
        · rw [if_neg hm, if_neg (by simp [List.mem_cons, hut, hm])]
      · rw [ih2, hs1, hs2]
        by_cases hm : u ∈ ts
        · rw [if_pos hm, if_pos (List.mem_cons_of_mem t hm)]
        · rw [if_neg hm, if_neg (by simp [List.mem_cons, hut, hm])]

theorem indexTokenStep_docs (docId : String) (s : BM25State) (t : String) :
    (indexTokenStep docId s t).documents = s.documents := rfl

theorem indexTokenStep_self (docId : String) (s : BM25State) (t : String) :
    lookupIdx (indexTokenStep docId s t) t = insertIfAbsent docId (lookupIdx s t)
    ∧ lookupFreq (indexTokenStep docId s t) t = lookupFreq s t + 1 := by
  unfold indexTokenStep
  exact ⟨by simp [lookupIdx, alistGet_update_eq],
    by simp [lookupFreq, alistGet_update_eq]⟩

theorem indexTokenStep_other (docId : String) (s : BM25State) (t u : String)
    (hu : u ≠ t) :
    lookupIdx (indexTokenStep docId s t) u = lookupIdx s u
    ∧ lookupFreq (indexTokenStep docId s t) u = lookupFreq s u := by
  unfold indexTokenStep
  exact ⟨by simp [lookupIdx, alistGet_update_ne _ _ _ _ _ hu],
    by simp [lookupFreq, alistGet_update_ne _ _ _ _ _ hu]⟩

theorem indexFold_spec (docId : String) (ts : List String) (s : BM25State)
    (hnd : ts.Nodup) (u : String) :
    lookupIdx (ts.foldl (indexTokenStep docId) s) u =
      (if u ∈ ts then insertIfAbsent docId (lookupIdx s u) else lookupIdx s u)
    ∧ lookupFreq (ts.foldl (indexTokenStep docId) s) u =
      (if u ∈ ts then lookupFreq s u + 1 else lookupFreq s u)
    ∧ (ts.foldl (indexTokenStep docId) s).documents = s.documents := by
  induction ts generalizing s with
  | nil => simp
  | cons t ts ih =>
    obtain ⟨hnotin, hnd2⟩ := List.nodup_cons.1 hnd
    obtain ⟨ih1, ih2, ih3⟩ := ih (indexTokenStep docId s t) hnd2
    simp only [List.foldl_cons]
    by_cases hut : u = t
    · subst hut
      obtain ⟨hs1, hs2⟩ := indexTokenStep_self docId s u
      refine ⟨?_, ?_, by rw [ih3, indexTokenStep_docs]⟩
      · rw [ih1, if_neg hnotin, hs1, if_pos (List.mem_cons_self u ts)]
      · rw [ih2, if_neg hnotin, hs2, if_pos (List.mem_cons_self u ts)]
    · obtain ⟨hs1, hs2⟩ := indexTokenStep_other docId s t u hut
      refine ⟨?_, ?_, by rw [ih3, indexTokenStep_docs]⟩
      · rw [ih1, hs1]
        by_cases hm : u ∈ ts
        · rw [if_pos hm, if_pos (List.mem_cons_of_mem t hm)]
        · rw [if_neg hm, if_neg (by simp [List.mem_cons, hut, hm])]
      · rw [ih2, hs2]
        by_cases hm : u ∈ ts
        · rw [if_pos hm, if_pos (List.mem_cons_of_mem t hm)]
        · rw [if_neg hm, if_neg (by simp [List.mem_cons, hut, hm])]

theorem mem_insertIfAbsent (x y : String) (l : List String) :
    x ∈ insertIfAbsent y l ↔ x ∈ l ∨ x = y := by
  unfold insertIfAbsent
  by_cases h : y ∈ l
  · rw [if_pos h]
    constructor
    · exact fun hx => Or.inl hx
    · rintro (hx | rfl)
      · exact hx
      · exact h
  · rw [if_neg h]
    simp [List.mem_append]

/-- Well-formedness invariant of the BM25 index state: posting sets point at
stored documents that really contain the token and vice versa, document
frequencies of stored tokens are positive, token counts are correct, and the
corpus statistics agree with the stored documents.  It holds for the empty
index and is preserved by `add_document`. -/
structure BM25Wf (st : BM25State) : Prop where
  docsNodup : (st.documents.map (fun d => d.docId)).Nodup
  idxSound : ∀ t d, d ∈ lookupIdx st t →
    ∃ doc ∈ st.documents, doc.docId = d ∧ t ∈ doc.tokens
  idxComplete : ∀ doc ∈ st.documents, ∀ t ∈ doc.tokens, doc.docId ∈ lookupIdx st t
  freqPos : ∀ doc ∈ st.documents, ∀ t ∈ doc.tokens, 1 ≤ lookupFreq st t
  tokenCountEq : ∀ doc ∈ st.documents, doc.tokenCount = doc.tokens.length
  statsTotal : st.totalDocs = st.documents.length
  statsAvg : st.avgDocLength =
    (if 0 < st.documents.length then
      ((st.documents.map (fun d => d.tokenCount)).sum : ℚ) / (st.documents.length : ℚ)
     else 0)

theorem bm25Wf_empty : BM25Wf bm25Empty := by
  constructor <;> simp [bm25Empty, lookupIdx, lookupFreq, alistGet]

theorem bm25Wf_addDocument (st : BM25State) (wf : BM25Wf st)
    (docId content : String) (md : Metadata) :
    BM25Wf (st.addDocument docId content md) := by
  have huniq : ∀ d1 ∈ st.documents, ∀ d2 ∈ st.documents,
      d1.docId = d2.docId → d1 = d2 := by
    intro d1 h1 d2 h2 h12
    exact List.inj_on_of_nodup_map wf.docsNodup h1 h2 h12
  -- shared facts about the intermediate state st1 (after the optional
  -- `_remove_from_index` of a pre-existing document with the same id)
  set doc := BM25Document.fromText docId content md with hdocdef
  have hdocid : doc.docId = docId := rfl
  have hdoctc : doc.tokenCount = doc.tokens.length := rfl
  set st1 := (if st.documents.any (fun d => d.docId = docId) then
      st.removeFromIndex docId
    else st) with hst1def
  have hF : st1.documents = st.documents
      ∧ (∀ u d, d ∈ lookupIdx st1 u → d ∈ lookupIdx st u ∧ d ≠ docId)
      ∧ (∀ u d, d ∈ lookupIdx st u → d ≠ docId → d ∈ lookupIdx st1 u)
      ∧ (∀ u, (∃ d ∈ lookupIdx st u, d ≠ docId) →
          lookupFreq st1 u = lookupFreq st u) := by
    by_cases hex : st.documents.any (fun d => d.docId = docId)
    · rw [hst1def, if_pos hex]
      have hfind : ∃ oldDoc, st.documents.find? (fun d => d.docId = docId)
          = some oldDoc := by
        obtain ⟨d0, hd0, hd0id⟩ := List.any_eq_true.1 hex
        rcases hfe : st.documents.find? (fun d => d.docId = docId) with _ | d1
        · exact absurd (List.find?_eq_none.1 hfe d0 hd0) (by simpa using hd0id)
        · exact ⟨d1, hfe⟩
      obtain ⟨oldDoc, hfind⟩ := hfind
      have holdmem : oldDoc ∈ st.documents := List.mem_of_find?_eq_some hfind
      have holdid : oldDoc.docId = docId := by
        simpa using List.find?_some hfind
      have hkey : ∀ u d, d ∈ lookupIdx st u → d = docId → u ∈ oldDoc.tokens.dedup := by
        intro u d hd hdid
        obtain ⟨doc0, hdoc0, hdoc0id, hdoc0t⟩ := wf.idxSound u d hd
        have : doc0 = oldDoc := huniq doc0 hdoc0 oldDoc holdmem
          (by rw [hdoc0id, hdid, holdid])
        rw [List.mem_dedup]
        rw [← this]
        exact hdoc0t
      unfold BM25State.removeFromIndex
      rw [hfind]
      refine ⟨(removeFold_spec docId _ st (List.nodup_dedup _) "").2.2, ?_, ?_, ?_⟩
      · intro u d hd
        obtain ⟨hl, _, _⟩ := removeFold_spec docId (oldDoc.tokens.dedup) st
          (List.nodup_dedup _) u
        rw [hl] at hd
        by_cases hm : u ∈ oldDoc.tokens.dedup
        · rw [if_pos hm] at hd
          have := List.mem_filter.1 hd
          refine ⟨this.1, by simpa using this.2⟩
        · rw [if_neg hm] at hd
          refine ⟨hd, ?_⟩
          intro hdid
          exact hm (hkey u d hd hdid)
      · intro u d hd hdne
        obtain ⟨hl, _, _⟩ := removeFold_spec docId (oldDoc.tokens.dedup) st
          (List.nodup_dedup _) u
        rw [hl]
        by_cases hm : u ∈ oldDoc.tokens.dedup
        · rw [if_pos hm]
          exact List.mem_filter.2 ⟨hd, by simpa using hdne⟩
        · rw [if_neg hm]
          exact hd
      · intro u hu
        obtain ⟨d, hd, hdne⟩ := hu
        obtain ⟨_, hf, _⟩ := removeFold_spec docId (oldDoc.tokens.dedup) st
          (List.nodup_dedup _) u
        rw [hf]
        by_cases hm : u ∈ oldDoc.tokens.dedup
        · rw [if_pos hm]
          have hne : ¬ ((lookupIdx st u).filter (fun d => d ≠ docId)).isEmpty := by
            rw [List.isEmpty_iff]
            intro hemp
            have : d ∈ (lookupIdx st u).filter (fun d => d ≠ docId) :=
              List.mem_filter.2 ⟨hd, by simpa using hdne⟩
            rw [hemp] at this
            exact absurd this (List.not_mem_nil d)
          rw [if_neg hne]
        · rw [if_neg hm]
    · rw [hst1def, if_neg hex]
      have hnot : ∀ d ∈ st.documents, d.docId ≠ docId := by
        intro d hd
        intro hdid
        exact hex (List.any_eq_true.2 ⟨d, hd, by simpa using hdid⟩)
      refine ⟨rfl, ?_, fun u d hd _ => hd, fun u _ => rfl⟩
      intro u d hd
      refine ⟨hd, ?_⟩
      intro hdid
      obtain ⟨doc0, hdoc0, hdoc0id, _⟩ := wf.idxSound u d hd
      exact hnot doc0 hdoc0 (by rw [hdoc0id, hdid])
  obtain ⟨hF1, hF2, hF3, hF4⟩ := hF
  -- the state after replacing the documents and indexing the new tokens
  set st2 : BM25State := { st1 with
    documents := replaceOrAppendDoc st1.documents doc } with hst2def
  have hst2idx : ∀ u, lookupIdx st2 u = lookupIdx st1 u := fun _ => rfl
  have hst2freq : ∀ u, lookupFreq st2 u = lookupFreq st1 u := fun _ => rfl
  set st3 := (doc.tokens.dedup).foldl (indexTokenStep docId) st2 with hst3def
  have hfold := fun u => indexFold_spec docId (doc.tokens.dedup) st2
    (List.nodup_dedup _) u
  have hdocs3 : st3.documents = replaceOrAppendDoc st.documents doc := by
    rw [hst3def, (hfold "").2.2, hst2def]
    simp only
    rw [hF1]
  -- facts about replaceOrAppendDoc
  have hR1 : doc ∈ replaceOrAppendDoc st.documents doc := by
    unfold replaceOrAppendDoc
    by_cases hex : st.documents.any (fun d => d.docId = doc.docId)
    · rw [if_pos hex]
      obtain ⟨d0, hd0, hd0id⟩ := List.any_eq_true.1 hex
      refine List.mem_map.2 ⟨d0, hd0, ?_⟩
      rw [if_pos (by simpa using hd0id)]
    · rw [if_neg hex]
      exact List.mem_append.2 (Or.inr (List.mem_singleton.2 rfl))
  have hR2 : ∀ d ∈ replaceOrAppendDoc st.documents doc,
      d = doc ∨ (d ∈ st.documents ∧ d.docId ≠ doc.docId) := by
    unfold replaceOrAppendDoc
    by_cases hex : st.documents.any (fun d => d.docId = doc.docId)
    · rw [if_pos hex]
      intro d hd
      obtain ⟨d0, hd0, hd0eq⟩ := List.mem_map.1 hd
      by_cases hc : d0.docId = doc.docId
      · left
        rw [← hd0eq, if_pos hc]
      · right
        rw [← hd0eq, if_neg hc]
        exact ⟨hd0, hc⟩
    · rw [if_neg hex]
      intro d hd
      rcases List.mem_append.1 hd with hd2 | hd2
      · right
        refine ⟨hd2, ?_⟩
        intro hdid
        exact hex (List.any_eq_true.2 ⟨d, hd2, by simpa using hdid⟩)
      · left
        exact List.mem_singleton.1 hd2
  have hR3 : ∀ d ∈ st.documents, d.docId ≠ doc.docId →
      d ∈ replaceOrAppendDoc st.documents doc := by
    unfold replaceOrAppendDoc
    intro d hd hdne
    by_cases hex : st.documents.any (fun d => d.docId = doc.docId)
    · rw [if_pos hex]
      refine List.mem_map.2 ⟨d, hd, ?_⟩
      rw [if_neg hdne]
    · rw [if_neg hex]
      exact List.mem_append.2 (Or.inl hd)
  have hR4 : ((replaceOrAppendDoc st.documents doc).map (fun d => d.docId)).Nodup := by
    unfold replaceOrAppendDoc
    by_cases hex : st.documents.any (fun d => d.docId = doc.docId)
    · rw [if_pos hex]
      have : (st.documents.map (fun d => if d.docId = doc.docId then doc else d)).map
          (fun d => d.docId) = st.documents.map (fun d => d.docId) := by
        rw [List.map_map]
        refine List.map_congr_left ?_
        intro d _
        simp only [Function.comp]
        by_cases hc : d.docId = doc.docId
        · rw [if_pos hc, hc]
        · rw [if_neg hc]
      rw [this]
      exact wf.docsNodup
    · rw [if_neg hex]
      rw [List.map_append]
      simp only [List.map_cons, List.map_nil]
      rw [List.nodup_append]
      refine ⟨wf.docsNodup, List.nodup_singleton _, ?_⟩
      intro a ha hb
      rw [List.mem_singleton.1 hb] at ha
      obtain ⟨d0, hd0, hd0id⟩ := List.mem_map.1 ha
      exact hex (List.any_eq_true.2 ⟨d0, hd0, by simpa using hd0id⟩)
  -- assemble the invariant for the final state
  have hfinal : st.addDocument docId content md = st3.updateStatistics := by
    rfl
  rw [hfinal]
  have hup_docs : (st3.updateStatistics).documents = st3.documents := rfl
  have hup_idx : ∀ u, lookupIdx (st3.updateStatistics) u = lookupIdx st3 u :=
    fun _ => rfl
  have hup_freq : ∀ u, lookupFreq (st3.updateStatistics) u = lookupFreq st3 u :=
    fun _ => rfl
  constructor
  · rw [hup_docs, hdocs3]
    exact hR4
  · -- idxSound
    intro t d hd
    rw [hup_idx] at hd
    rw [hup_docs, hdocs3]
    obtain ⟨hl, _, _⟩ := hfold t
    rw [hl] at hd
    by_cases hm : t ∈ doc.tokens.dedup
    · rw [if_pos hm] at hd
      rcases (mem_insertIfAbsent d docId (lookupIdx st2 t)).1 hd with hd2 | rfl
      · rw [hst2idx] at hd2
        obtain ⟨hd3, hdne⟩ := hF2 t d hd2
        obtain ⟨doc0, hdoc0, hdoc0id, hdoc0t⟩ := wf.idxSound t d hd3
        refine ⟨doc0, hR3 doc0 hdoc0 ?_, hdoc0id, hdoc0t⟩
        rw [hdocid]
        intro hcon
        exact hdne (by rw [← hdoc0id, hcon])
      · exact ⟨doc, hR1, hdocid, List.mem_dedup.1 hm⟩
    · rw [if_neg hm, hst2idx] at hd
      obtain ⟨hd3, hdne⟩ := hF2 t d hd
      obtain ⟨doc0, hdoc0, hdoc0id, hdoc0t⟩ := wf.idxSound t d hd3
      refine ⟨doc0, hR3 doc0 hdoc0 ?_, hdoc0id, hdoc0t⟩
      rw [hdocid]
      intro hcon
      exact hdne (by rw [← hdoc0id, hcon])
  · -- idxComplete
    intro doc1 hdoc1 t ht
    rw [hup_docs, hdocs3] at hdoc1
    rw [hup_idx]
    obtain ⟨hl, _, _⟩ := hfold t
    rw [hl]
    rcases hR2 doc1 hdoc1 with rfl | ⟨hmem, hne⟩
    · have hm : t ∈ doc.tokens.dedup := List.mem_dedup.2 ht
      rw [if_pos hm]
      exact (mem_insertIfAbsent _ _ _).2 (Or.inr hdocid)
    · have hbase : doc1.docId ∈ lookupIdx st2 t := by
        rw [hst2idx]
        refine hF3 t doc1.docId (wf.idxComplete doc1 hmem t ht) ?_
        rw [← hdocid]
        exact hne
      by_cases hm : t ∈ doc.tokens.dedup
      · rw [if_pos hm]
        exact (mem_insertIfAbsent _ _ _).2 (Or.inl hbase)
      · rw [if_neg hm]
        exact hbase
  · -- freqPos
    intro doc1 hdoc1 t ht
    rw [hup_docs, hdocs3] at hdoc1
    rw [hup_freq]
    obtain ⟨_, hf, _⟩ := hfold t
    rw [hf]
    rcases hR2 doc1 hdoc1 with rfl | ⟨hmem, hne⟩
    · have hm : t ∈ doc.tokens.dedup := List.mem_dedup.2 ht
      rw [if_pos hm]
      omega
    · by_cases hm : t ∈ doc.tokens.dedup
      · rw [if_pos hm]
        omega
      · rw [if_neg hm, hst2freq]
        have hidf : doc1.docId ∈ lookupIdx st t := wf.idxComplete doc1 hmem t ht
        have : lookupFreq st1 t = lookupFreq st t := by
          refine hF4 t ⟨doc1.docId, hidf, ?_⟩
          rw [← hdocid]
          exact hne
        rw [this]
        exact wf.freqPos doc1 hmem t ht
  · -- tokenCountEq
    intro doc1 hdoc1
    rw [hup_docs, hdocs3] at hdoc1
    rcases hR2 doc1 hdoc1 with rfl | ⟨hmem, _⟩
    · exact hdoctc
    · exact wf.tokenCountEq doc1 hmem
  · -- statsTotal
    rfl
  · -- statsAvg
    rfl

/-- C6 counterexample: for a token with document frequency 0 (any token not
occurring in the corpus — here on the fresh index), `_get_idf` returns 0,
which is below the claimed floor `ε = 0.25` and differs from the claimed
formula `max(ε, ln((N − df + 0.5)/(df + 0.5) + 1))`, whose value at `df = 0`
is at least `ln 2`. -/
theorem c6_idf_counterexample :
    bm25Empty.getIdf "zebra" = 0
    ∧ ¬ ((1/4 : ℝ) ≤ bm25Empty.getIdf "zebra")
    ∧ bm25Empty.getIdf "zebra" ≠
        max (1/4 : ℝ)
          (Real.log (((bm25Empty.totalDocs : ℝ) - (lookupFreq bm25Empty "zebra" : ℝ) + 1/2)
            / ((lookupFreq bm25Empty "zebra" : ℝ) + 1/2) + 1)) := by
  have h0 : lookupFreq bm25Empty "zebra" = 0 := rfl
  have h : bm25Empty.getIdf "zebra" = 0 := by
    unfold BM25State.getIdf
    rw [h0]
    simp
  refine ⟨h, by rw [h]; norm_num, ?_⟩
  rw [h, h0]
  intro hcon
  have : (1/4 : ℝ) ≤ 0 := by
    rw [hcon]
    exact le_max_left _ _
  norm_num at this

/-- C6 (amended): for every token present in at least one indexed document
(document frequency ≥ 1 — exactly the tokens `_calculate_scores` ever asks
IDF for, since candidates contain a query token), `_get_idf` returns
`max(ε, ln((N − df + 0.5)/(df + 0.5) + 1))` with `ε = 0.25`, and in
particular this value is at least 0.25.  Tokens with `df = 0` instead get an
IDF of 0. -/
theorem c6_amended_idf_floor (st : BM25State) (t : String)
    (hdf : 1 ≤ lookupFreq st t) (he : st.epsilon = 1/4) :
    st.getIdf t =
      max (1/4 : ℝ)
        (Real.log (((st.totalDocs : ℝ) - (lookupFreq st t : ℝ) + 1/2)
          / ((lookupFreq st t : ℝ) + 1/2) + 1))
    ∧ (1/4 : ℝ) ≤ st.getIdf t := by
  have hne : lookupFreq st t ≠ 0 := by omega
  have heq : st.getIdf t =
      max (Real.log (((st.totalDocs : ℝ) - (lookupFreq st t : ℝ) + 1/2)
        / ((lookupFreq st t : ℝ) + 1/2) + 1)) ((st.epsilon : ℚ) : ℝ) := by
    unfold BM25State.getIdf
    rw [if_neg hne]
  have hcast : ((st.epsilon : ℚ) : ℝ) = (1/4 : ℝ) := by
    rw [he]
    norm_num
  constructor
  · rw [heq, hcast, max_comm]
  · rw [heq, hcast]
    exact le_max_right _ _

/-- Concrete witness for the amended C6 theorem: after indexing one document
containing "hello", the token has document frequency 1 and its IDF respects
the 0.25 floor. -/
theorem c6_amended_idf_floor_witness :
    1 ≤ lookupFreq (bm25Empty.addDocument "d1" "hello world" []) "hello"
    ∧ (1/4 : ℝ) ≤ (bm25Empty.addDocument "d1" "hello world" []).getIdf "hello" :=
  ⟨by decide,
   (c6_amended_idf_floor (bm25Empty.addDocument "d1" "hello world" []) "hello"
      (by decide) rfl).2⟩

/-- C10: whenever `_calculate_scores` reaches the length-normalization
division for a candidate document, the stored `avg_doc_length` is strictly
positive — a candidate document contains some query token, so the corpus
holds a document with at least one token, forcing the average document length
(total token count over document count) to be positive.  `BM25Wf` is the
index invariant established by `bm25Wf_empty` and `bm25Wf_addDocument`. -/
theorem c10_avg_doc_length_positive (st : BM25State) (wf : BM25Wf st)
    (queryTokens : List String) (d : String)
    (hd : d ∈ st.candidateDocs queryTokens) :
    0 < st.avgDocLength := by
  unfold BM25State.candidateDocs at hd
  rw [List.mem_dedup] at hd
  obtain ⟨l, hl, hdl⟩ := List.mem_flatten.1 hd
  obtain ⟨t, _, rfl⟩ := List.mem_map.1 hl
  obtain ⟨doc0, hdoc0, _, hdoc0t⟩ := wf.idxSound t d hdl
  have hlen : 0 < st.documents.length := by
    cases hdocs : st.documents with
    | nil => rw [hdocs] at hdoc0; exact absurd hdoc0 (List.not_mem_nil _)
    | cons a as => simp [hdocs]
  have htc : 1 ≤ doc0.tokenCount := by
    rw [wf.tokenCountEq doc0 hdoc0]
    cases htoks : doc0.tokens with
    | nil => rw [htoks] at hdoc0t; exact absurd hdoc0t (List.not_mem_nil _)
    | cons a as => simp [htoks]
  have hsum : 1 ≤ (st.documents.map (fun d => d.tokenCount)).sum :=
    le_trans htc
      (List.single_le_sum (fun x _ => Nat.zero_le x) _
        (List.mem_map.2 ⟨doc0, hdoc0, rfl⟩))
  rw [wf.statsAvg, if_pos hlen]
  apply div_pos
  · have h1 : (1 : ℚ) ≤ (((st.documents.map (fun d => d.tokenCount)).sum : ℕ) : ℚ) := by
      exact_mod_cast hsum
    rw [Nat.cast_list_sum, List.map_map] at h1
    calc (0 : ℚ) < 1 := by norm_num
    _ ≤ _ := h1
  · exact_mod_cast hlen

/-- Concrete witness for C10: the one-document index is well-formed, "d1" is
a candidate for the query token "hello", and the average document length is
positive. -/
theorem c10_avg_doc_length_positive_witness :
    "d1" ∈ (bm25Empty.addDocument "d1" "hello world" []).candidateDocs
        (tokenize "hello")
    ∧ 0 < (bm25Empty.addDocument "d1" "hello world" []).avgDocLength :=
  ⟨by decide,
   c10_avg_doc_length_positive (bm25Empty.addDocument "d1" "hello world" [])
     (bm25Wf_addDocument bm25Empty bm25Wf_empty "d1" "hello world" [])
     (tokenize "hello") "d1" (by decide)⟩

/-! ## Hybrid retriever fusion (mlcf.retrieval.hybrid_retriever) -/

/-- A retrieval result as far as fusion arithmetic is concerned: its id and
its score (content/metadata/method ride along unchanged). -/
structure ScoredResult where
  id : String
  score : ℚ
deriving DecidableEq, Repr

/-- `_normalize_scores`: min-max normalization, except that a list whose
score spread is below `1e-10` is returned unchanged. -/
def normalizeScores (results : List ScoredResult) : List ScoredResult :=
  match results with
  | [] => []
  | r0 :: rest =>
    let minScore := rest.foldl (fun m r => min m r.score) r0.score
    let maxScore := rest.foldl (fun m r => max m r.score) r0.score
    if maxScore - minScore < 1/10^10 then r0 :: rest
    else (r0 :: rest).map (fun r =>
      { r with score := (r.score - minScore) / (maxScore - minScore) })

/-- Fused result: combined score plus the per-component sub-map. -/
structure FusedResult where
  id : String
  score : ℚ
  componentScores : List (String × ℚ)
deriving DecidableEq, Repr

/-- The combination phase of `_fuse_results`, applied to already-normalized
component lists: build `score_map`, accumulate the weighted component
scores, sort by combined score descending. -/
def fuseCombine (keywordWeight semanticWeight graphWeight : ℚ)
    (keyword semanticR graph : List ScoredResult) : List FusedResult :=
  let m0 : List (String × FusedResult) := keyword.foldl (fun m r =>
    alistSet m r.id
      { id := r.id, score := r.score * keywordWeight
        componentScores := [("keyword", r.score)] }) []
  let m1 := semanticR.foldl (fun m r =>
    let entry := (alistGet m r.id).getD
      { id := r.id, score := 0, componentScores := [] }
    alistSet m r.id
      { entry with
        score := entry.score + r.score * semanticWeight
        componentScores := alistSet entry.componentScores "semantic" r.score }) m0
  let m2 := graph.foldl (fun m r =>
    let entry := (alistGet m r.id).getD
      { id := r.id, score := 0, componentScores := [] }
    alistSet m r.id
      { entry with
        score := entry.score + r.score * graphWeight
        componentScores := alistSet entry.componentScores "graph" r.score }) m1
  sortStable (fun a b => b.score ≤ a.score) (m2.map (fun p => p.2))

/-- `_fuse_results`: normalize each component list independently, then
combine. -/
def fuseResults (keywordWeight semanticWeight graphWeight : ℚ)
    (keyword semanticR graph : List ScoredResult) : List FusedResult :=
  fuseCombine keywordWeight semanticWeight graphWeight
    (normalizeScores keyword) (normalizeScores semanticR) (normalizeScores graph)

theorem foldl_min_le (l : List ScoredResult) (a : ℚ) :
    (l.foldl (fun m r => min m r.score) a ≤ a)
    ∧ ∀ r ∈ l, l.foldl (fun m r => min m r.score) a ≤ r.score := by
  induction l generalizing a with
  | nil => simp
  | cons x xs ih =>
    simp only [List.foldl_cons]
    obtain ⟨ih1, ih2⟩ := ih (min a x.score)
    refine ⟨le_trans ih1 (min_le_left _ _), ?_⟩
    intro r hr
    rcases List.mem_cons.1 hr with rfl | hr2
    · exact le_trans ih1 (min_le_right _ _)
    · exact ih2 r hr2

theorem le_foldl_max (l : List ScoredResult) (a : ℚ) :
    (a ≤ l.foldl (fun m r => max m r.score) a)
    ∧ ∀ r ∈ l, r.score ≤ l.foldl (fun m r => max m r.score) a := by
  induction l generalizing a with
  | nil => simp
  | cons x xs ih =>
    simp only [List.foldl_cons]
    obtain ⟨ih1, ih2⟩ := ih (max a x.score)
    refine ⟨le_trans (le_max_left _ _) ih1, ?_⟩
    intro r hr
    rcases List.mem_cons.1 hr with rfl | hr2
    · exact le_trans (le_max_right _ _) ih1
    · exact ih2 r hr2

/-- C8 counterexample: a single-result component list (max = min) is passed
through `_normalize_scores` unchanged — its score stays 3, it does not become
1.0 and is not in [0, 1]. -/
theorem c8_normalize_counterexample :
    normalizeScores [{ id := "d1", score := 3 }] = [{ id := "d1", score := 3 }]
    ∧ ({ id := "d1", score := 3 } : ScoredResult).score ≠ 1 := by
  constructor
  · have hc : (3 : ℚ) - 3 < 1/10^10 := by norm_num
    simp [normalizeScores, hc]
  · norm_num

/-- C8 (amended): fusion normalizes each component list independently before
the weighted combination; when a list's score spread `max − min` is at least
`1e-10` every normalized score lands in [0, 1], but when the spread is below
`1e-10` (in particular whenever max = min) the list is passed through
unchanged rather than being set to 1.0. -/
theorem c8_amended_normalization (keywordWeight semanticWeight graphWeight : ℚ)
    (keyword semanticR graph : List ScoredResult)
    (r0 : ScoredResult) (rest : List ScoredResult) :
    (fuseResults keywordWeight semanticWeight graphWeight keyword semanticR graph
      = fuseCombine keywordWeight semanticWeight graphWeight
          (normalizeScores keyword) (normalizeScores semanticR)
          (normalizeScores graph))
    ∧ ((1/10^10 : ℚ) ≤ rest.foldl (fun m r => max m r.score) r0.score
          - rest.foldl (fun m r => min m r.score) r0.score →
        ∀ r ∈ normalizeScores (r0 :: rest), 0 ≤ r.score ∧ r.score ≤ 1)
    ∧ (rest.foldl (fun m r => max m r.score) r0.score
          - rest.foldl (fun m r => min m r.score) r0.score < 1/10^10 →
        normalizeScores (r0 :: rest) = r0 :: rest) := by
  refine ⟨rfl, ?_, ?_⟩
  · intro hspread r hr
    set minScore := rest.foldl (fun m r => min m r.score) r0.score with hmin
    set maxScore := rest.foldl (fun m r => max m r.score) r0.score with hmax
    have hnlt : ¬ (maxScore - minScore < 1/10^10) := not_lt.2 hspread
    have hpos : 0 < maxScore - minScore := by
      have : (0 : ℚ) < 1/10^10 := by norm_num
      linarith
    rw [normalizeScores] at hr
    simp only [← hmin, ← hmax, if_neg hnlt] at hr
    obtain ⟨x, hx, rfl⟩ := List.mem_map.1 hr
    have hxmin : minScore ≤ x.score := by
      rcases List.mem_cons.1 hx with rfl | hx2
      · exact (foldl_min_le rest x.score).1
      · exact (foldl_min_le rest r0.score).2 x hx2
    have hxmax : x.score ≤ maxScore := by
      rcases List.mem_cons.1 hx with rfl | hx2
      · exact (le_foldl_max rest x.score).1
      · exact (le_foldl_max rest r0.score).2 x hx2
    constructor
    · exact div_nonneg (by linarith) (le_of_lt hpos)
    · rw [div_le_one hpos]
      linarith
  · intro hspread
    rw [normalizeScores]
    simp only [if_pos hspread]

/-- Concrete witness for the amended C8 theorem: a two-result list with
spread 2 is normalized to scores 0 and 1. -/
theorem c8_amended_normalization_witness :
    ((1/10^10 : ℚ) ≤
        [({ id := "d2", score := 3 } : ScoredResult)].foldl
          (fun m r => max m r.score) ({ id := "d1", score := 1 } : ScoredResult).score
        - [({ id := "d2", score := 3 } : ScoredResult)].foldl
          (fun m r => min m r.score) ({ id := "d1", score := 1 } : ScoredResult).score)
    ∧ ∀ r ∈ normalizeScores [{ id := "d1", score := 1 }, { id := "d2", score := 3 }],
        0 ≤ r.score ∧ r.score ≤ 1 := by
  have hsp : (1/10^10 : ℚ) ≤
      [({ id := "d2", score := 3 } : ScoredResult)].foldl
        (fun m r => max m r.score) ({ id := "d1", score := 1 } : ScoredResult).score
      - [({ id := "d2", score := 3 } : ScoredResult)].foldl
        (fun m r => min m r.score) ({ id := "d1", score := 1 } : ScoredResult).score := by
    simp only [List.foldl_cons, List.foldl_nil]
    norm_num
  exact ⟨hsp,
    (c8_amended_normalization 0 0 0 [] [] [] { id := "d1", score := 1 }
      [{ id := "d2", score := 3 }]).2.1 hsp⟩

/-! ## Orchestrator (mlcf.core.orchestrator, mlcf.core.context_models) -/

/-- `LayerType`. -/
inductive LayerType where
  | immediate
  | session
  | longTerm
deriving DecidableEq, Repr

/-- A scored assembly-funnel entry: item, retrieval score, source layer. -/
abbrev ScoredEntry := ContextItem × ℚ × LayerType

/-- `ContextOrchestrator._calculate_relevance`: Jaccard similarity of the
lowercased word sets. -/
def calcRelevance (content query : String) : ℚ :=
  let contentWords := setOf (pySplit (pyLowerStr content))
  let queryWords := setOf (pySplit (pyLowerStr query))
  if queryWords.isEmpty then 0
  else
    let inter := ((queryWords.filter (fun w => w ∈ contentWords)).length : ℚ)
    let union := (queryWords.length : ℚ)
      + ((contentWords.filter (fun w => w ∉ queryWords)).length : ℚ)
    if 0 < union then inter / union else 0

/-- `ContextOrchestrator._matches_query`: some query word is a substring of
the content (both lowercased). -/
def matchesQuery (it : ContextItem) (query : String) : Bool :=
  (pySplit query).any (fun w => strContainsSub (pyLowerStr it.content) (pyLowerStr w))

/-- `ContextOrchestrator._calculate_score`: tier weight × recency decay ×
query-relevance factor × importance multiplier.  The item timestamp is always
present on the retrieval path, so the recency factor always applies; the
importance map here has no `minimal` entry (it falls back to 1.0), and an
empty query is falsy, skipping the relevance factor. -/
def calcScore (it : ContextItem) (query : String) (now : Int)
    (layer : LayerType) : ℚ :=
  let layerWeight : ℚ := match layer with
    | LayerType.immediate => 1
    | LayerType.session => 4/5
    | LayerType.longTerm => 3/5
  let ageHours : ℚ := ((now - it.timestamp : Int) : ℚ) / 3600
  let recencyFactor : ℚ := 1 / (1 + ageHours / 24)
  let score := layerWeight * recencyFactor
  let score := if query ≠ "" then
      score * (1/2 + 1/2 * calcRelevance it.content query)
    else score
  let importanceMul : ℚ := match metaGet it.metadata "importance" with
    | some (Value.str "critical") => 3/2
    | some (Value.str "high") => 6/5
    | some (Value.str "normal") => 1
    | some (Value.str "low") => 4/5
    | _ => 1
  score * importanceMul

/-- State of the `_deduplicate` loop: ids already kept, content-hash map
(keyed by the trimmed-lowercased content itself — `hash` is injective in the
embedding), and the output list. -/
structure DedupState where
  seenIds : List String
  seenContent : List (String × ScoredEntry)
  uniqItems : List ScoredEntry

/-- One iteration of `_deduplicate`: skip seen ids; on a content collision
keep the strictly higher-scoring entry, removing the previous copies from the
output list while they are still present. -/
def dedupStep (st : DedupState) (e : ScoredEntry) : DedupState :=
  if e.1.id ∈ st.seenIds then st
  else
    let c := normContent e.1.content
    match alistGet st.seenContent c with
    | some ex =>
      if ex.2.1 < e.2.1 then
        { seenIds := e.1.id :: st.seenIds
          seenContent := alistSet st.seenContent c e
          uniqItems := (st.uniqItems.filter
            (fun x => normContent x.1.content ≠ c)) ++ [e] }
      else st
    | none =>
      { seenIds := e.1.id :: st.seenIds
        seenContent := alistSet st.seenContent c e
        uniqItems := st.uniqItems ++ [e] }

/-- `ContextOrchestrator._deduplicate`. -/
def deduplicate (items : List ScoredEntry) : List ScoredEntry :=
  (items.foldl dedupStep ⟨[], [], []⟩).uniqItems

/-- The loop of `_apply_token_budget`: accept entries while the running token
estimate stays within budget; stop at the first overflow. -/
def applyTokenBudgetGo (maxTokens : Nat) : Nat → List ScoredEntry → List ScoredEntry
  | _, [] => []
  | total, e :: rest =>
    let t := e.1.content.length / 4
    if total + t ≤ maxTokens then e :: applyTokenBudgetGo maxTokens (total + t) rest
    else []

/-- `ContextOrchestrator._apply_token_budget`. -/
def applyTokenBudget (items : List ScoredEntry) (maxTokens : Nat) :
    List ScoredEntry :=
  applyTokenBudgetGo maxTokens 0 items

/-- The estimated token total of a response item list (`len(content) // 4`
summed). -/
def tokenSum (items : List ContextItem) : Nat :=
  (items.map (fun it => it.content.length / 4)).sum

/-- The deduplicate / sort / truncate tail of
`ContextOrchestrator._assemble_context`, applied to the scored funnel
entries: deduplicate, sort by score descending (Python's stable sort), then
apply the token budget when `max_tokens` is truthy (`None` and 0 are falsy)
or truncate to `max_results`, and strip scores and layers. -/
def pyTruthyNat : Option Nat → Bool
  | none => false
  | some t => t ≠ 0

def assembleFromEntries (entries : List ScoredEntry) (maxResults : Nat)
    (maxTokens : Option Nat) : List ContextItem :=
  let uniqItems := deduplicate entries
  let sortedItems := sortStable (fun a b => b.2.1 ≤ a.2.1) uniqItems
  let finalItems := if pyTruthyNat maxTokens then
      applyTokenBudget sortedItems (maxTokens.getD 0)
    else sortedItems.take maxResults
  finalItems.map (fun x => x.1)

/-- The scored funnel entries entering `_assemble_context`. -/
def funnelEntries (immediate session longTerm : List ContextItem)
    (query : String) (now : Int) : List ScoredEntry :=
  immediate.map (fun it => (it, calcScore it query now LayerType.immediate,
    LayerType.immediate))
  ++ session.map (fun it => (it, calcScore it query now LayerType.session,
    LayerType.session))
  ++ longTerm.map (fun it => (it, calcScore it query now LayerType.longTerm,
    LayerType.longTerm))

def assembleContext (immediate session longTerm : List ContextItem)
    (query : String) (maxResults : Nat) (maxTokens : Option Nat) (now : Int) :
    List ContextItem :=
  assembleFromEntries (funnelEntries immediate session longTerm query now)
    maxResults maxTokens

/-- `ContextRequest` (request fields that reach the orchestrator's read
path; `strategy` is the enum's string value). -/
structure ContextRequest where
  query : String
  maxResults : Nat := 10
  maxTokens : Option Nat := none
  includeImmediate : Bool := true
  includeSession : Bool := true
  includeLongTerm : Bool := true
  strategy : String := "hybrid"
  filters : Option Metadata := none
  conversationId : Option String := none
deriving DecidableEq, Repr

/-- Stand-in for Python `str(filters)` in the cache key: a deterministic
rendering used only up to equality. -/
def valueRepr : Value → String
  | Value.str s => s
  | Value.num q => toString q
  | Value.bool b => toString b
  | Value.list l => String.intercalate "," l

/-- Rendering of a filters dictionary for the cache key. -/
def filtersRepr (fs : Metadata) : String :=
  String.intercalate ";" (fs.map (fun p => p.1 ++ "=" ++ valueRepr p.2))

/-- `ContextRequest.cache_key`: md5 (injective in the embedding) of
query, max_results, strategy and filters and conversation id joined with
`|`.  Note `max_tokens` and the tier-inclusion flags are NOT part of the
key. -/
def cacheKey (req : ContextRequest) : String :=
  String.intercalate "|"
    [req.query, toString req.maxResults, req.strategy,
     (req.filters.elim "" filtersRepr), req.conversationId.getD ""]

/-- `ContextResponse` (the metadata dict is modelled by its known keys). -/
structure ContextResponse where
  items : List ContextItem
  query : String
  strategy : String
  totalRetrieved : Nat
  immediateCount : Nat
  sessionCount : Nat
  longTermCount : Nat
  cacheHit : Bool
deriving DecidableEq, Repr

/-- Orchestrator state for the read path: the immediate buffer, the session
store's live items, and the response cache (`key → (response, inserted_at)`).
Long-term storage is the `enable_long_term = False` configuration. -/
structure OrchestratorState where
  immediateBuffer : ImmediateContextBuffer
  sessionItems : List ContextItem := []
  cache : List (String × (ContextResponse × Int)) := []
  enableCaching : Bool := true
  cacheTtl : Int := 300
  relevanceThreshold : ℚ := 3/5
deriving Repr

/-- `_get_from_cache`: a hit younger than the TTL is returned with
`cache_hit` set; an expired entry is deleted and misses. -/
def getFromCache (cache : List (String × (ContextResponse × Int)))
    (key : String) (now ttl : Int) :
    Option ContextResponse × List (String × (ContextResponse × Int)) :=
  match alistGet cache key with
  | none => (none, cache)
  | some (resp, insertedAt) =>
    if ttl < now - insertedAt then (none, alistRemove cache key)
    else (some { resp with cacheHit := true }, cache)

/-- `_add_to_cache`: insert, and past 100 entries drop the 20 oldest by
insertion time. -/
def addToCache (cache : List (String × (ContextResponse × Int)))
    (key : String) (resp : ContextResponse) (now : Int) :
    List (String × (ContextResponse × Int)) :=
  let cache1 := alistSet cache key (resp, now)
  if 100 < cache1.length then
    ((sortStable (fun a b => a.2.2 ≤ b.2.2) cache1).take 20).foldl
      (fun c p => alistRemove c p.1) cache1
  else cache1

/-- `_retrieve_from_immediate`: recent items, filtered by the query when it
is non-empty. -/
def retrieveFromImmediate (st : OrchestratorState) (req : ContextRequest)
    (now : Int) : List ContextItem :=
  if !req.includeImmediate then []
  else
    let results := st.immediateBuffer.getRecentItems now (some req.maxResults)
      req.conversationId
    if req.query ≠ "" then results.filter (fun it => matchesQuery it req.query)
    else results

/-- `_retrieve_from_session`. -/
def retrieveFromSession (st : OrchestratorState) (req : ContextRequest)
    (now : Int) : List ContextItem :=
  if !req.includeSession then []
  else sessionSearch st.sessionItems req.query req.maxResults req.filters
    req.conversationId none st.relevanceThreshold now

/-- The cache-miss body of `retrieve`: per-tier retrieval, assembly, response
construction and cache installation. -/
def retrieveCore (st : OrchestratorState) (req : ContextRequest) (now : Int) :
    ContextResponse × OrchestratorState :=
  let immediateResults := retrieveFromImmediate st req now
  let sessionResults := retrieveFromSession st req now
  let longTermResults : List ContextItem := []
  let assembled := assembleContext immediateResults sessionResults
    longTermResults req.query req.maxResults req.maxTokens now
  let response : ContextResponse :=
    { items := assembled, query := req.query, strategy := req.strategy
      totalRetrieved := immediateResults.length + sessionResults.length
        + longTermResults.length
      immediateCount := immediateResults.length
      sessionCount := sessionResults.length
      longTermCount := longTermResults.length
      cacheHit := false }
  let st1 := if st.enableCaching then
      { st with cache := addToCache st.cache (cacheKey req) response now }
    else st
  (response, st1)

/-- `ContextOrchestrator.retrieve`: serve from the response cache when
enabled and fresh, otherwise assemble and install. -/
def retrieve (st : OrchestratorState) (req : ContextRequest) (now : Int) :
    ContextResponse × OrchestratorState :=
  if st.enableCaching then
    match getFromCache st.cache (cacheKey req) now st.cacheTtl with
    | (some r, cache1) => (r, { st with cache := cache1 })
    | (none, cache1) => retrieveCore { st with cache := cache1 } req now
  else retrieveCore st req now

/-- Coherence of the funnel: entries carrying the same item id are the same
item, and a later occurrence never scores higher than an earlier one.  The
orchestrator guarantees this: an id recurs only when one stored item is
returned by several tiers, and the funnel lists tiers in decreasing
tier-weight order while every other score factor depends only on the item
and the request. -/
def SameIdCoherent (x y : ScoredEntry) : Prop :=
  x.1.id = y.1.id → x.1 = y.1 ∧ y.2.1 ≤ x.2.1

/-- Loop invariant of `_deduplicate` after processing the prefix
`processed`: the content map is defined exactly on the classes seen, each
class representative is a processed entry of that class with the maximal
score, the output holds exactly one entry per seen class (the
representative), and every seen id belongs to a processed entry. -/
def DedupInv (processed : List ScoredEntry) (st : DedupState) : Prop :=
  (∀ c, (alistGet st.seenContent c).isSome
    ↔ ∃ x ∈ processed, normContent x.1.content = c)
  ∧ (∀ c e, alistGet st.seenContent c = some e →
      e ∈ processed ∧ normContent e.1.content = c
      ∧ ∀ x ∈ processed, normContent x.1.content = c → x.2.1 ≤ e.2.1)
  ∧ (∀ c, st.uniqItems.filter (fun x => normContent x.1.content = c)
      = (alistGet st.seenContent c).elim [] (fun e => [e]))
  ∧ (∀ i ∈ st.seenIds, ∃ x ∈ processed, x.1.id = i)

theorem filter_ne_then_eq_nil (c : String) (l : List ScoredEntry) :
    (l.filter (fun x => normContent x.1.content ≠ c)).filter
      (fun x => normContent x.1.content = c) = [] := by
  induction l with
  | nil => rfl
  | cons a as ih =>
    by_cases h : normContent a.1.content = c
    · simp [List.filter_cons, h, ih]
    · simp [List.filter_cons, h, ih]

theorem filter_ne_then_other (c c2 : String) (hne : c2 ≠ c)
    (l : List ScoredEntry) :
    (l.filter (fun x => normContent x.1.content ≠ c)).filter
      (fun x => normContent x.1.content = c2)
    = l.filter (fun x => normContent x.1.content = c2) := by
  induction l with
  | nil => rfl
  | cons a as ih =>
    by_cases h : normContent a.1.content = c
    · have h2 : normContent a.1.content ≠ c2 := by
        rw [h]
        exact Ne.symm hne
      simpa [List.filter_cons, h, h2, Ne.symm hne] using ih
    · by_cases h2 : normContent a.1.content = c2
      · simpa [List.filter_cons, h, h2, hne] using ih
      · simpa [List.filter_cons, h, h2] using ih

theorem dedupStep_eq_insert (st : DedupState) (e : ScoredEntry)
    (hid : e.1.id ∉ st.seenIds)
    (hget : alistGet st.seenContent (normContent e.1.content) = none) :
    dedupStep st e =
      { seenIds := e.1.id :: st.seenIds
        seenContent := alistSet st.seenContent (normContent e.1.content) e
        uniqItems := st.uniqItems ++ [e] } := by
  simp only [dedupStep, if_neg hid, hget]

theorem dedupStep_eq_replace (st : DedupState) (e ex : ScoredEntry)
    (hid : e.1.id ∉ st.seenIds)
    (hget : alistGet st.seenContent (normContent e.1.content) = some ex)
    (hlt : ex.2.1 < e.2.1) :
    dedupStep st e =
      { seenIds := e.1.id :: st.seenIds
        seenContent := alistSet st.seenContent (normContent e.1.content) e
        uniqItems := (st.uniqItems.filter
          (fun x => normContent x.1.content ≠ normContent e.1.content)) ++ [e] } := by
  simp only [dedupStep, if_neg hid, hget, if_pos hlt]

theorem dedupStep_eq_keep (st : DedupState) (e ex : ScoredEntry)
    (hid : e.1.id ∉ st.seenIds)
    (hget : alistGet st.seenContent (normContent e.1.content) = some ex)
    (hnlt : ¬ ex.2.1 < e.2.1) :
    dedupStep st e = st := by
  simp only [dedupStep, if_neg hid, hget, if_neg hnlt]

theorem dedupStep_inv (p : List ScoredEntry) (st : DedupState) (e : ScoredEntry)
    (inv : DedupInv p st) (hRe : ∀ x ∈ p, SameIdCoherent x e) :
    DedupInv (p ++ [e]) (dedupStep st e) := by
  obtain ⟨inv1, inv2, inv3, inv4⟩ := inv
  by_cases hid : e.1.id ∈ st.seenIds
  · -- the entry is skipped entirely
    rw [dedupStep, if_pos hid]
    obtain ⟨x0, hx0, hx0id⟩ := inv4 e.1.id hid
    obtain ⟨hx0item, hx0sc⟩ := hRe x0 hx0 hx0id
    have hnce : normContent e.1.content = normContent x0.1.content := by
      rw [hx0item]
    refine ⟨?_, ?_, inv3, ?_⟩
    · intro c2
      rw [inv1 c2]
      constructor
      · rintro ⟨x, hx, hnc⟩
        exact ⟨x, List.mem_append_left _ hx, hnc⟩
      · rintro ⟨x, hx, hnc⟩
        rcases List.mem_append.1 hx with hxp | hxe
        · exact ⟨x, hxp, hnc⟩
        · rw [List.mem_singleton.1 hxe] at hnc
          exact ⟨x0, hx0, by rw [← hnce]; exact hnc⟩
    · intro c2 e2 hget
      obtain ⟨hmem, hnc, hmax⟩ := inv2 c2 e2 hget
      refine ⟨List.mem_append_left _ hmem, hnc, ?_⟩
      intro x hx hxnc
      rcases List.mem_append.1 hx with hxp | hxe
      · exact hmax x hxp hxnc
      · rw [List.mem_singleton.1 hxe] at hxnc ⊢
        have hx0c : normContent x0.1.content = c2 := by rw [← hnce]; exact hxnc
        exact le_trans hx0sc (hmax x0 hx0 hx0c)
    · intro i hi
      obtain ⟨x, hx, hxi⟩ := inv4 i hi
      exact ⟨x, List.mem_append_left _ hx, hxi⟩
  · rcases hget : alistGet st.seenContent (normContent e.1.content) with _ | ex
    · -- fresh content class: plain insert
      rw [dedupStep_eq_insert st e hid hget]
      refine ⟨?_, ?_, ?_, ?_⟩
      · intro c2
        by_cases hc2 : c2 = normContent e.1.content
        · subst hc2
          simp only [alistGet_set_eq, Option.isSome_some, true_iff]
          exact ⟨e, List.mem_append_right _ (List.mem_singleton.2 rfl), rfl⟩
        · rw [alistGet_set_ne _ _ _ _ hc2, inv1 c2]
          constructor
          · rintro ⟨x, hx, hnc⟩
            exact ⟨x, List.mem_append_left _ hx, hnc⟩
          · rintro ⟨x, hx, hnc⟩
            rcases List.mem_append.1 hx with hxp | hxe
            · exact ⟨x, hxp, hnc⟩
            · rw [List.mem_singleton.1 hxe] at hnc
              exact absurd hnc.symm hc2
      · intro c2 e2 hget2
        by_cases hc2 : c2 = normContent e.1.content
        · subst hc2
          rw [alistGet_set_eq] at hget2
          obtain rfl := Option.some_injective _ hget2
          refine ⟨List.mem_append_right _ (List.mem_singleton.2 rfl), rfl, ?_⟩
          intro x hx hxnc
          rcases List.mem_append.1 hx with hxp | hxe
          · exact absurd ((inv1 _).2 ⟨x, hxp, hxnc⟩) (by rw [hget]; simp)
          · rw [List.mem_singleton.1 hxe]
        · rw [alistGet_set_ne _ _ _ _ hc2] at hget2
          obtain ⟨hmem, hnc, hmax⟩ := inv2 c2 e2 hget2
          refine ⟨List.mem_append_left _ hmem, hnc, ?_⟩
          intro x hx hxnc
          rcases List.mem_append.1 hx with hxp | hxe
          · exact hmax x hxp hxnc
          · rw [List.mem_singleton.1 hxe] at hxnc
            exact absurd hxnc.symm hc2
      · intro c2
        rw [List.filter_append]
        by_cases hc2 : c2 = normContent e.1.content
        · subst hc2
          rw [inv3 _, hget, alistGet_set_eq]
          simp
        · rw [alistGet_set_ne _ _ _ _ hc2, inv3 c2]
          have : ([e].filter (fun x => normContent x.1.content = c2)) = [] := by
            simp [List.filter_cons]
            intro hcon
            exact hc2 hcon.symm
          rw [this, List.append_nil]
      · intro i hi
        rcases List.mem_cons.1 hi with rfl | hi2
        · exact ⟨e, List.mem_append_right _ (List.mem_singleton.2 rfl), rfl⟩
        · obtain ⟨x, hx, hxi⟩ := inv4 i hi2
          exact ⟨x, List.mem_append_left _ hx, hxi⟩
    · by_cases hlt : ex.2.1 < e.2.1
      · -- replace the weaker representative
        rw [dedupStep_eq_replace st e ex hid hget hlt]
        refine ⟨?_, ?_, ?_, ?_⟩
        · intro c2
          by_cases hc2 : c2 = normContent e.1.content
          · subst hc2
            simp only [alistGet_set_eq, Option.isSome_some, true_iff]
            exact ⟨e, List.mem_append_right _ (List.mem_singleton.2 rfl), rfl⟩
          · rw [alistGet_set_ne _ _ _ _ hc2, inv1 c2]
            constructor
            · rintro ⟨x, hx, hnc⟩
              exact ⟨x, List.mem_append_left _ hx, hnc⟩
            · rintro ⟨x, hx, hnc⟩
              rcases List.mem_append.1 hx with hxp | hxe
              · exact ⟨x, hxp, hnc⟩
              · rw [List.mem_singleton.1 hxe] at hnc
                exact absurd hnc.symm hc2
        · intro c2 e2 hget2
          by_cases hc2 : c2 = normContent e.1.content
          · subst hc2
            rw [alistGet_set_eq] at hget2
            obtain rfl := Option.some_injective _ hget2
            refine ⟨List.mem_append_right _ (List.mem_singleton.2 rfl), rfl, ?_⟩
            intro x hx hxnc
            rcases List.mem_append.1 hx with hxp | hxe
            · obtain ⟨_, _, hmax⟩ := inv2 _ ex hget
              exact le_of_lt (lt_of_le_of_lt (hmax x hxp hxnc) hlt)
            · rw [List.mem_singleton.1 hxe]
          · rw [alistGet_set_ne _ _ _ _ hc2] at hget2
            obtain ⟨hmem, hnc, hmax⟩ := inv2 c2 e2 hget2
            refine ⟨List.mem_append_left _ hmem, hnc, ?_⟩
            intro x hx hxnc
            rcases List.mem_append.1 hx with hxp | hxe
            · exact hmax x hxp hxnc
            · rw [List.mem_singleton.1 hxe] at hxnc
              exact absurd hxnc.symm hc2
        · intro c2
          rw [List.filter_append]
          by_cases hc2 : c2 = normContent e.1.content
          · subst hc2
            rw [alistGet_set_eq, filter_ne_then_eq_nil]
            simp
          · rw [alistGet_set_ne _ _ _ _ hc2,
              filter_ne_then_other _ _ hc2, inv3 c2]
            have : ([e].filter (fun x => normContent x.1.content = c2)) = [] := by
              simp [List.filter_cons]
              intro hcon
              exact hc2 hcon.symm
            rw [this, List.append_nil]
        · intro i hi
          rcases List.mem_cons.1 hi with rfl | hi2
          · exact ⟨e, List.mem_append_right _ (List.mem_singleton.2 rfl), rfl⟩
          · obtain ⟨x, hx, hxi⟩ := inv4 i hi2
            exact ⟨x, List.mem_append_left _ hx, hxi⟩
      · -- the existing representative wins; the entry is dropped
        rw [dedupStep_eq_keep st e ex hid hget hlt]
        refine ⟨?_, ?_, inv3, ?_⟩
        · intro c2
          rw [inv1 c2]
          constructor
          · rintro ⟨x, hx, hnc⟩
            exact ⟨x, List.mem_append_left _ hx, hnc⟩
          · rintro ⟨x, hx, hnc⟩
            rcases List.mem_append.1 hx with hxp | hxe
            · exact ⟨x, hxp, hnc⟩
            · rw [List.mem_singleton.1 hxe] at hnc
              obtain ⟨hmem, _, _⟩ := inv2 _ ex hget
              exact ⟨ex, hmem, by
                subst hnc
                exact (inv2 _ ex hget).2.1⟩
        · intro c2 e2 hget2
          obtain ⟨hmem, hnc, hmax⟩ := inv2 c2 e2 hget2
          refine ⟨List.mem_append_left _ hmem, hnc, ?_⟩
          intro x hx hxnc
          rcases List.mem_append.1 hx with hxp | hxe
          · exact hmax x hxp hxnc
          · rw [List.mem_singleton.1 hxe] at hxnc ⊢
            have he2 : e2 = ex := by
              have : c2 = normContent e.1.content := hxnc.symm
              subst this
              rw [hget] at hget2
              exact (Option.some_injective _ hget2).symm
            rw [he2]
            exact not_lt.1 hlt
        · intro i hi
          obtain ⟨x, hx, hxi⟩ := inv4 i hi
          exact ⟨x, List.mem_append_left _ hx, hxi⟩

theorem dedup_fold_inv (l : List ScoredEntry) :
    ∀ (p : List ScoredEntry) (st : DedupState),
    DedupInv p st → List.Pairwise SameIdCoherent (p ++ l) →
    DedupInv (p ++ l) (l.foldl dedupStep st) := by
  induction l with
  | nil =>
    intro p st inv _
    simpa using inv
  | cons e l ih =>
    intro p st inv hpw
    have hRe : ∀ x ∈ p, SameIdCoherent x e := by
      intro x hx
      exact (List.pairwise_append.1 hpw).2.2 x hx e (List.mem_cons_self _ _)
    have hstep := dedupStep_inv p st e inv hRe
    have hpw2 : List.Pairwise SameIdCoherent ((p ++ [e]) ++ l) := by
      rw [List.append_assoc]
      simpa using hpw
    have := ih (p ++ [e]) (dedupStep st e) hstep hpw2
    rw [List.append_assoc] at this
    simpa using this

theorem insertLe_perm {a : Type} (le : a → a → Bool) (x : a) (l : List a) :
    (insertLe le x l).Perm (x :: l) := by
  induction l with
  | nil => exact List.Perm.refl _
  | cons y ys ih =>
    rw [insertLe]
    by_cases h : le y x
    · rw [if_pos h]
      exact (ih.cons y).trans (List.Perm.swap x y ys)
    · rw [if_neg h]

theorem sortStable_perm {a : Type} (le : a → a → Bool) (l : List a) :
    (sortStable le l).Perm l := by
  suffices h : ∀ (l acc : List a),
      (l.foldl (fun acc x => insertLe le x acc) acc).Perm (acc ++ l) by
    simpa using h l []
  intro l
  induction l with
  | nil => simp
  | cons x xs ih =>
    intro acc
    simp only [List.foldl_cons]
    have h1 := ih (insertLe le x acc)
    have h2 : (insertLe le x acc ++ xs).Perm ((x :: acc) ++ xs) :=
      (insertLe_perm le x acc).append_right xs
    have h3 : ((x :: acc) ++ xs).Perm (acc ++ x :: xs) := by
      simp only [List.cons_append]
      exact (List.perm_middle).symm
    exact (h1.trans h2).trans h3

theorem applyTokenBudgetGo_sublist (maxTokens total : Nat)
    (l : List ScoredEntry) :
    (applyTokenBudgetGo maxTokens total l).Sublist l := by
  induction l generalizing total with
  | nil => simp [applyTokenBudgetGo]
  | cons e rest ih =>
    rw [applyTokenBudgetGo]
    by_cases h : total + e.1.content.length / 4 ≤ maxTokens
    · rw [if_pos h]
      exact List.Sublist.cons₂ e (ih _)
    · rw [if_neg h]
      exact List.nil_sublist _

/-- C3 counterexample: two funnel candidates share the content "same text"
(ids i1, i2, scores 2 and 1), but with `max_tokens = 1` the token budget
rejects even the surviving representative, so zero items of that content
appear in the response — not "exactly one". -/
theorem c3_dedup_counterexample :
    (let entryA : ScoredEntry :=
      ⟨{ content := "same text", id := "i1", timestamp := 0 }, 2,
        LayerType.immediate⟩
     let entryB : ScoredEntry :=
      ⟨{ content := "same text", id := "i2", timestamp := 0 }, 1,
        LayerType.session⟩
     ((entryA.1.content = "same text" ∧ entryB.1.content = "same text")
      ∧ (assembleFromEntries [entryA, entryB] 10 (some 1)).countP
          (fun it => normContent it.content = normContent "same text") = 0
      ∧ (0 : Nat) ≠ 1)) := by
  refine ⟨⟨rfl, rfl⟩, ?_, by decide⟩
  decide

/-- C3 (amended): among the funnel candidates, the deduplication step keeps
exactly one entry per (trim+lowercase) content class — an input entry of that
class whose score is maximal in the class (hypothesis: entries sharing an id
carry the same item and never gain score at a later position, which the
tier ordering of the funnel guarantees).  The subsequent sort plus
`max_results`/token-budget truncation can only drop entries, so the response
contains at most one item of each content class (not always exactly one). -/
theorem c3_amended_dedup_semantics (items : List ScoredEntry)
    (hco : List.Pairwise SameIdCoherent items) (c : String)
    (hex : ∃ x ∈ items, normContent x.1.content = c) :
    ∃ e ∈ items, normContent e.1.content = c
      ∧ (deduplicate items).filter (fun x => normContent x.1.content = c) = [e]
      ∧ (∀ x ∈ items, normContent x.1.content = c → x.2.1 ≤ e.2.1)
      ∧ ∀ (maxResults : Nat) (maxTokens : Option Nat),
          (assembleFromEntries items maxResults maxTokens).countP
            (fun it => normContent it.content = c) ≤ 1 := by
  have hinv0 : DedupInv [] ⟨[], [], []⟩ := by
    refine ⟨?_, ?_, ?_, ?_⟩ <;> simp [alistGet]
  have h := dedup_fold_inv items [] ⟨[], [], []⟩ hinv0 (by simpa using hco)
  simp only [List.nil_append] at h
  obtain ⟨h1, h2, h3, _⟩ := h
  have hsome := (h1 c).2 hex
  rcases hget : alistGet ((items.foldl dedupStep ⟨[], [], []⟩).seenContent) c
    with _ | e
  · rw [hget] at hsome
    simp at hsome
  · obtain ⟨hmem, hnc, hmax⟩ := h2 c e hget
    have hfilter : (deduplicate items).filter
        (fun x => normContent x.1.content = c) = [e] := by
      rw [deduplicate, h3 c, hget]
      rfl
    have hcount : (deduplicate items).countP
        (fun x => normContent x.1.content = c) = 1 := by
      rw [List.countP_eq_length_filter, hfilter]
      rfl
    refine ⟨e, hmem, hnc, hfilter, hmax, ?_⟩
    intro maxResults maxTokens
    have key : ∀ fl : List ScoredEntry,
        fl.Sublist (sortStable (fun a b => b.2.1 ≤ a.2.1) (deduplicate items)) →
        (fl.map (fun x => x.1)).countP
          (fun it => normContent it.content = c) ≤ 1 := by
      intro fl hsub
      rw [List.countP_map]
      have hle := hsub.countP_le
        ((fun it : ContextItem => decide (normContent it.content = c))
          ∘ (fun x : ScoredEntry => x.1))
      refine le_trans hle ?_
      have hperm := (sortStable_perm
        (fun a b : ScoredEntry => decide (b.2.1 ≤ a.2.1)) (deduplicate items))
      rw [hperm.countP_eq]
      rw [show ((fun it : ContextItem => decide (normContent it.content = c))
          ∘ (fun x : ScoredEntry => x.1))
        = (fun x : ScoredEntry => decide (normContent x.1.content = c)) from rfl]
      exact hcount.le
    simp only [assembleFromEntries]
    split
    · exact key _ (applyTokenBudgetGo_sublist _ 0 _)
    · exact key _ (List.take_sublist _ _)

/-- Concrete witness for the amended C3 theorem: a two-entry funnel with the
same content under distinct ids. -/
theorem c3_amended_dedup_semantics_witness :
    (let entryA : ScoredEntry :=
      ⟨{ content := "same text", id := "i1", timestamp := 0 }, 2,
        LayerType.immediate⟩
     let entryB : ScoredEntry :=
      ⟨{ content := "same text", id := "i2", timestamp := 0 }, 1,
        LayerType.session⟩
     ∃ e ∈ [entryA, entryB], normContent e.1.content = normContent "same text"
      ∧ (deduplicate [entryA, entryB]).filter
          (fun x => normContent x.1.content = normContent "same text") = [e]
      ∧ (∀ x ∈ [entryA, entryB],
          normContent x.1.content = normContent "same text" → x.2.1 ≤ e.2.1)
      ∧ ∀ (maxResults : Nat) (maxTokens : Option Nat),
          (assembleFromEntries [entryA, entryB] maxResults maxTokens).countP
            (fun it => normContent it.content = normContent "same text") ≤ 1) :=
  c3_amended_dedup_semantics _
    (by
      refine List.pairwise_cons.2 ⟨?_, List.pairwise_singleton _ _⟩
      intro y hy
      rw [List.mem_singleton.1 hy]
      intro hid
      exact absurd hid (by decide))
    _
    ⟨_, List.mem_cons_self _ _, rfl⟩

theorem applyTokenBudgetGo_tokenSum (T : Nat) (l : List ScoredEntry) :
    ∀ total, total ≤ T →
      total + tokenSum ((applyTokenBudgetGo T total l).map (fun x => x.1)) ≤ T := by
  induction l with
  | nil =>
    intro total h
    simpa [applyTokenBudgetGo, tokenSum] using h
  | cons e rest ih =>
    intro total h
    rw [applyTokenBudgetGo]
    by_cases hc : total + e.1.content.length / 4 ≤ T
    · rw [if_pos hc]
      have hrec := ih (total + e.1.content.length / 4) hc
      simp only [List.map_cons, tokenSum, List.sum_cons] at hrec ⊢
      omega
    · rw [if_neg hc]
      simpa [tokenSum] using h

theorem assembleFromEntries_tokenSum (entries : List ScoredEntry)
    (maxResults T : Nat) (hT : T ≠ 0) :
    tokenSum (assembleFromEntries entries maxResults (some T)) ≤ T := by
  have htr : pyTruthyNat (some T) = true := by
    simp [pyTruthyNat, hT]
  simp only [assembleFromEntries, htr, if_true, Option.getD_some]
  simpa using applyTokenBudgetGo_tokenSum T _ 0 (Nat.zero_le T)

/-- C1 counterexample: the cache key omits `max_tokens`, so a cache hit can
serve a response that violates the requesting budget, and `max_tokens = 0` is
falsy and disables the budget entirely.  A stored 44-character item (11
estimated tokens) is retrieved under `max_tokens = 1000` and cached; an
otherwise identical request with `max_tokens = 10` gets the cached response
with 11 > 10 estimated tokens; and a request with `max_tokens = 0` gets 11
tokens as well. -/
theorem c1_budget_counterexample :
    (let x : ContextItem :=
      { content := "cccccccccccccccccccccccccccccccccccccccccccc", id := "x1",
        timestamp := 100 }
     let st0 : OrchestratorState :=
      { immediateBuffer := { maxSize := 10, ttlSeconds := 3600, buffer := [x] } }
     let reqA : ContextRequest :=
      { query := "", maxTokens := some 1000, includeSession := false,
        includeLongTerm := false }
     let reqB : ContextRequest :=
      { query := "", maxTokens := some 10, includeSession := false,
        includeLongTerm := false }
     let req0 : ContextRequest :=
      { query := "", maxTokens := some 0, includeSession := false,
        includeLongTerm := false }
     let r1 := retrieve st0 reqA 100
     let r2 := retrieve r1.2 reqB 100
     let r0 := retrieve st0 req0 100
     (x.content.length = 44
      ∧ tokenSum r1.1.items = 11
      ∧ r2.1.cacheHit = true ∧ tokenSum r2.1.items = 11 ∧ ¬ (11 ≤ 10)
      ∧ tokenSum r0.1.items = 11 ∧ ¬ (11 ≤ 0))) := by
  refine ⟨rfl, ?_, ?_, ?_, by decide, ?_, by decide⟩ <;> decide

/-- C1 (amended): every response assembled on the cache-miss path (or with
caching disabled) under a truthy `max_tokens = T` honors the token budget:
the estimated token total `Σ len(content)//4` of its items is at most `T`.
A cached response only honors the budget of the request that created it —
`cache_key` omits `max_tokens` — and `max_tokens = 0` is falsy in Python and
disables the budget. -/
theorem c1_amended_token_budget (st : OrchestratorState) (req : ContextRequest)
    (now : Int) (T : Nat)
    (hmt : req.maxTokens = some T) (hT : T ≠ 0)
    (hmiss : st.enableCaching = false ∨
      (getFromCache st.cache (cacheKey req) now st.cacheTtl).1 = none) :
    tokenSum (retrieve st req now).1.items ≤ T := by
  have hcore : ∀ st2 : OrchestratorState,
      tokenSum (retrieveCore st2 req now).1.items ≤ T := by
    intro st2
    show tokenSum (assembleContext _ _ _ req.query req.maxResults req.maxTokens now) ≤ T
    rw [assembleContext, hmt]
    exact assembleFromEntries_tokenSum _ req.maxResults T hT
  rw [retrieve]
  rcases hmiss with hdis | hnone
  · rw [hdis]
    simp only [Bool.false_eq_true, if_false]
    exact hcore st
  · by_cases henc : st.enableCaching
    · rw [if_pos henc]
      rcases hp : getFromCache st.cache (cacheKey req) now st.cacheTtl with ⟨o, cache1⟩
      rw [hp] at hnone
      simp only at hnone
      subst hnone
      exact hcore _
    · rw [if_neg henc]
      exact hcore st

/-- Concrete witness for the amended C1 theorem: a fresh orchestrator (empty
cache) retrieving one stored item under `max_tokens = 1000`. -/
theorem c1_amended_token_budget_witness :
    (let x : ContextItem :=
      { content := "cccccccccccccccccccccccccccccccccccccccccccc", id := "x1",
        timestamp := 100 }
     let st0 : OrchestratorState :=
      { immediateBuffer := { maxSize := 10, ttlSeconds := 3600, buffer := [x] } }
     let reqA : ContextRequest :=
      { query := "", maxTokens := some 1000, includeSession := false,
        includeLongTerm := false }
     tokenSum (retrieve st0 reqA 100).1.items ≤ 1000) :=
  c1_amended_token_budget _ _ 100 1000 rfl (by decide) (Or.inr rfl)

/-! ## Adaptive chunker (mlcf.retrieval.adaptive_chunking) -/

/-- A text chunk; the `metadata` dict (chunk index, total length, caller
metadata) carries no information relevant to the cover property and is not
modelled. -/
structure Chunk where
  chunkId : String
  content : List Char
  startPos : Nat
  endPos : Nat
  overlapBefore : Nat
  overlapAfter : Nat
deriving DecidableEq, Repr

/-- `AdaptiveChunker` parameters. -/
structure ChunkerConfig where
  chunkSize : Nat := 512
  minChunkSize : Nat := 100
  maxChunkSize : Nat := 1024
  baseOverlap : Nat := 50
  adaptiveOverlap : Bool := true
  preserveSentences : Bool := true
deriving Repr

/-- The sentence-ending punctuation class `[.!?]`. -/
def isSentencePunct (c : Char) : Bool := c = '.' ∨ c = '!' ∨ c = '?'

/-- Length of the leading run satisfying `p`. -/
def spanP (p : Char → Bool) : List Char → Nat
  | [] => 0
  | c :: cs => if p c then spanP p cs + 1 else 0

/-- The match ends of `re.finditer(r"[.!?]+\s+", text)`: a maximal
punctuation run followed by at least one whitespace character matches, the
match end being the end of the whitespace run, and scanning resumes there;
a punctuation run with no whitespace after it cannot start a match at any of
its positions, so scanning resumes after the run. -/
def sentBoundariesAux : Nat → List Char → Nat → List Nat
  | 0, _, _ => []
  | _, [], _ => []
  | fuel + 1, c :: rest, pos =>
    if isSentencePunct c then
      let p := spanP isSentencePunct (c :: rest)
      let w := spanP isPyWs ((c :: rest).drop p)
      if 0 < w then
        (pos + p + w) :: sentBoundariesAux fuel ((c :: rest).drop (p + w)) (pos + p + w)
      else
        sentBoundariesAux fuel ((c :: rest).drop p) (pos + p)
    else
      sentBoundariesAux fuel rest (pos + 1)

/-- `_find_sentence_boundaries`: text start, the regex match ends, text
end. -/
def findSentenceBoundaries (text : List Char) : List Nat :=
  [0] ++ sentBoundariesAux (text.length + 1) text 0 ++ [text.length]

/-- Index of the last newline in a character list, if any. -/
def lastNewlineIdx (l : List Char) : Option Nat :=
  (List.range l.length).foldl
    (fun acc i => if l.getD i ' ' = '\n' then some i else acc) none

/-- The match ends of `re.finditer(r"\n\s*\n", text)`: a newline followed by
a whitespace run containing another newline matches; the greedy `\s*`
backtracks so the match ends just after the last newline inside the run, and
scanning resumes there. -/
def paraBoundariesAux : Nat → List Char → Nat → List Nat
  | 0, _, _ => []
  | _, [], _ => []
  | fuel + 1, c :: rest, pos =>
    if c = '\n' then
      let k := spanP isPyWs rest
      match lastNewlineIdx (rest.take k) with
      | some j =>
        let r := pos + 1 + j + 1
        r :: paraBoundariesAux fuel ((c :: rest).drop (j + 2)) r
      | none => paraBoundariesAux fuel rest (pos + 1)
    else
      paraBoundariesAux fuel rest (pos + 1)

/-- `_find_paragraph_boundaries`. -/
def findParagraphBoundaries (text : List Char) : List Nat :=
  [0] ++ paraBoundariesAux (text.length + 1) text 0 ++ [text.length]

/-- Absolute difference of naturals (`abs(pos - target)`). -/
def natDist (a b : Nat) : Nat := max a b - min a b

/-- The binary-search loop of `_find_nearest`, tracking the best candidate
seen at a visited midpoint (`right` may go to −1, hence `Int` bounds). -/
def findNearestAux (ps : List Nat) (target maxDist : Nat) :
    Nat → Int → Int → Option Nat → Option Nat → Option Nat
  | 0, _, _, closest, _ => closest
  | fuel + 1, left, right, closest, minDist =>
    if left ≤ right then
      let mid := ((left + right) / 2).toNat
      let pos := ps.getD mid 0
      let distance := natDist pos target
      let better := (match minDist with
        | none => true
        | some m => decide (distance < m)) && decide (distance ≤ maxDist)
      let closest2 := if better then some pos else closest
      let minDist2 := if better then some distance else minDist
      if pos < target then
        findNearestAux ps target maxDist fuel (mid + 1) right closest2 minDist2
      else
        findNearestAux ps target maxDist fuel left (mid - 1) closest2 minDist2
    else closest

/-- `_find_nearest`. -/
def findNearest (target : Nat) (positions : List Nat) (maxDistance : Nat) :
    Option Nat :=
  if positions.isEmpty then none
  else findNearestAux positions target maxDistance (positions.length + 1) 0
    ((positions.length : Int) - 1) none none

/-- The forward-scanning loop of `_find_word_boundary`. -/
def findWordBoundaryAux (text : List Char) (maxPos : Nat) :
    Nat → Nat → Nat
  | 0, pos => pos
  | fuel + 1, pos =>
    if pos < maxPos ∧ ¬ isPyWs (text.getD pos ' ') then
      findWordBoundaryAux text maxPos fuel (pos + 1)
    else pos

/-- `_find_word_boundary`. -/
def findWordBoundary (text : List Char) (targetPos maxPos : Nat) : Nat :=
  let pos0 := min targetPos (maxPos - 1)
  let pos := findWordBoundaryAux text maxPos (maxPos + 1) pos0
  let pos := if maxPos ≤ pos then targetPos else pos
  min pos maxPos

/-- `_find_optimal_boundary`: clamp the target, prefer a paragraph boundary
within 100 characters, then (if configured) a sentence boundary within 150,
then a word boundary.  Python truthiness makes the boundary position 0 fall
through both preferred cases. -/
def findOptimalBoundary (text : List Char) (targetPos0 : Nat)
    (sentencePositions paragraphPositions : List Nat) (maxPos0 : Nat)
    (preserveSentences : Bool) : Nat :=
  let targetPos := min targetPos0 text.length
  let maxPos := min maxPos0 text.length
  let nearestPara := findNearest targetPos paragraphPositions 100
  match nearestPara with
  | some np =>
    if np ≠ 0 ∧ natDist np targetPos ≤ 100 then min np maxPos
    else
      match (if preserveSentences then
          findNearest targetPos sentencePositions 150 else none) with
      | some ns => if ns ≠ 0 then min ns maxPos
          else findWordBoundary text targetPos maxPos
      | none => findWordBoundary text targetPos maxPos
  | none =>
    match (if preserveSentences then
        findNearest targetPos sentencePositions 150 else none) with
    | some ns => if ns ≠ 0 then min ns maxPos
        else findWordBoundary text targetPos maxPos
    | none => findWordBoundary text targetPos maxPos

/-- `_calculate_adaptive_overlap`: half / base / one-and-a-half of the base
overlap by sentence density (`int(base * 1.5)` is exact as `3·base / 2`),
capped at a third of the chunk or 200 characters. -/
def calculateAdaptiveOverlap (cfg : ChunkerConfig) (chunkStart chunkEnd : Nat)
    (sentencePositions : List Nat) : Nat :=
  let sentencesInChunk := sentencePositions.countP
    (fun p => chunkStart ≤ p ∧ p ≤ chunkEnd)
  let overlap := if sentencesInChunk ≤ 2 then cfg.baseOverlap / 2
    else if sentencesInChunk ≤ 5 then cfg.baseOverlap
    else cfg.baseOverlap * 3 / 2
  let chunkLen := chunkEnd - chunkStart
  min overlap (min (chunkLen / 3) 200)

/-- The main loop of `chunk_text`.  The two size clamps compare in `Int` as
Python does.  `cur_pos` stays a natural: it could only go negative when the
overlap exceeds the chunk end, which the adaptive cap precludes.  The safety
break stops after chunk index 10000. -/
def chunkTextLoop (cfg : ChunkerConfig) (text : List Char)
    (sentPs paraPs : List Nat) : Nat → Nat → Nat → List Chunk
  | 0, _, _ => []
  | fuel + 1, curPos, chunkIndex =>
    if curPos < text.length then
      let targetEnd := curPos + cfg.chunkSize
      let chunkEnd := findOptimalBoundary text targetEnd sentPs paraPs
        (min (targetEnd + 200) text.length) cfg.preserveSentences
      let chunkEnd := if (chunkEnd : Int) - (curPos : Int) < (cfg.minChunkSize : Int)
          ∧ chunkEnd < text.length then
          min (curPos + cfg.minChunkSize) text.length
        else chunkEnd
      let chunkEnd := if (cfg.maxChunkSize : Int) < (chunkEnd : Int) - (curPos : Int) then
          curPos + cfg.maxChunkSize
        else chunkEnd
      let overlap := if cfg.adaptiveOverlap then
          calculateAdaptiveOverlap cfg curPos chunkEnd sentPs
        else cfg.baseOverlap
      let chunk : Chunk :=
        { chunkId := "chunk_" ++ toString chunkIndex
          content := (text.drop curPos).take (chunkEnd - curPos)
          startPos := curPos
          endPos := chunkEnd
          overlapBefore := if 0 < chunkIndex then overlap else 0
          overlapAfter := if chunkEnd < text.length then overlap else 0 }
      let nextPos := if chunkEnd ≤ chunkEnd - overlap then chunkEnd
        else chunkEnd - overlap
      if 10000 < chunkIndex + 1 then [chunk]
      else chunk :: chunkTextLoop cfg text sentPs paraPs fuel nextPos (chunkIndex + 1)
    else []

/-- `AdaptiveChunker.chunk_text`. -/
def chunkText (cfg : ChunkerConfig) (textS : String) : List Chunk :=
  let text := textS.data
  if text.isEmpty then []
  else chunkTextLoop cfg text (findSentenceBoundaries text)
    (findParagraphBoundaries text) 10002 0 0

/-- The reconstruction described by the claim: concatenate the chunks in
order, dropping from every chunk but the first the prefix of length equal to
its recorded `overlap_before`. -/
def reconstruct (chunks : List Chunk) : List Char :=
  match chunks with
  | [] => []
  | c0 :: rest =>
    c0.content ++ (rest.map (fun c => c.content.drop c.overlapBefore)).flatten

/-- A 348-character text: six short sentences followed by a long
punctuation-free tail, giving consecutive chunks different adaptive
overlaps. -/
def chunkBugText : String :=
  String.mk (List.replicate 22 'a') ++ ". " ++
  String.mk (List.replicate 22 'a') ++ ". " ++
  String.mk (List.replicate 22 'a') ++ ". " ++
  String.mk (List.replicate 22 'a') ++ ". " ++
  String.mk (List.replicate 22 'a') ++ ". " ++
  String.mk (List.replicate 26 'b') ++ ". " ++
  String.mk (List.replicate 200 'c')

/-- Chunker parameters exercising the adaptive overlap (all within the
constructor's accepted range). -/
def chunkBugCfg : ChunkerConfig :=
  { chunkSize := 150, minChunkSize := 20, maxChunkSize := 300,
    baseOverlap := 12, adaptiveOverlap := true, preserveSentences := true }

set_option maxRecDepth 100000 in
/-- C9 (code bug): `chunk_text` records each chunk's own freshly computed
overlap as its `overlap_before`, but the actually duplicated prefix is the
previous chunk's overlap (the loop advances `cur_pos = chunk_end − overlap`
with the overlap "for the next chunk", as the code's own comment says).  On
this text the first chunk has 7 sentence boundaries (overlap 18) while the
second has 2 (overlap 6): chunk 1 starts at 130 = 148 − 18 yet records
`overlap_before = 6`, and the loop goes on emitting overlapping tail chunks
after the boundary first reaches the end of the text.  Dropping each
recorded `overlap_before` prefix leaves 366 characters, not the original
348: the claimed character-for-character cover fails. -/
theorem c9_chunk_cover_eval :
    ((chunkText chunkBugCfg chunkBugText).map
        (fun c => (c.startPos, c.endPos, c.overlapBefore, c.overlapAfter))
      = [(0, 148, 0, 18), (130, 348, 6, 0), (342, 348, 2, 0), (346, 348, 0, 0)])
    ∧ chunkBugText.length = 348
    ∧ (reconstruct (chunkText chunkBugCfg chunkBugText)).length = 366
    ∧ reconstruct (chunkText chunkBugCfg chunkBugText) ≠ chunkBugText.data := by
  refine ⟨by decide, by decide, by decide, by decide⟩

end MLCF
